import Mathlib

/-!
Verification of the Snip-It action execution engine.

The definitions below are a shallow embedding of the TypeScript sources:
`src/execution/templateEngine.ts`, `src/execution/parameterResolver.ts`,
`src/execution/actionExecutor.ts`, `src/execution/predefinedVariables.ts`
and `src/actions/actionService.ts`.  JavaScript strings are modelled as
Lean `String`/`List Char`, `undefined`/optional values as `Option`,
thrown exceptions as `Except String`, and external collaborators
(file system, `path` module, secret storage, interactive prompts,
process spawning) as explicit oracle parameters.
-/

namespace SnipIt

/-! ## Template engine (`templateEngine.ts`)

The token grammar is the regex `/\$\{([^}]+)\}/g`: a literal `${`,
one or more characters that are not `}`, then `}`.  `splitAtBrace cs`
scans the characters following `${` and returns the (possibly empty) run
of non-`}` characters together with the characters after the first `}`,
or `none` when no `}` occurs. -/

def splitAtBrace : List Char → Option (List Char × List Char)
  | [] => none
  | c :: rest =>
    if c = '}' then some ([], rest)
    else (splitAtBrace rest).map (fun p => (c :: p.1, p.2))

theorem splitAtBrace_eq {l inner rest : List Char}
    (h : splitAtBrace l = some (inner, rest)) : l = inner ++ '}' :: rest := by
  induction l generalizing inner rest with
  | nil => simp [splitAtBrace] at h
  | cons c cs ih =>
    rw [splitAtBrace] at h
    by_cases hc : c = '}'
    · rw [if_pos hc] at h
      simp only [Option.some.injEq, Prod.mk.injEq] at h
      obtain ⟨h1, h2⟩ := h
      subst h1
      subst h2
      simp [hc]
    · rw [if_neg hc] at h
      cases hsb : splitAtBrace cs with
      | none => rw [hsb] at h; simp at h
      | some p =>
        obtain ⟨p1, p2⟩ := p
        rw [hsb] at h
        simp only [Option.map_some', Option.some.injEq, Prod.mk.injEq] at h
        obtain ⟨h1, h2⟩ := h
        subst h1
        subst h2
        simpa using ih hsb

theorem splitAtBrace_length {l inner rest : List Char}
    (h : splitAtBrace l = some (inner, rest)) : rest.length < l.length := by
  have := splitAtBrace_eq h
  subst this
  simp
  omega

/-- Model of the JavaScript `String.prototype.split(":")`: the result always
has at least one element, and separators at the ends produce empty pieces. -/
def splitOnColon : List Char → List (List Char)
  | [] => [[]]
  | c :: cs =>
    if c = ':' then [] :: splitOnColon cs
    else
      match splitOnColon cs with
      | [] => [[c]]
      | p :: ps => (c :: p) :: ps

/-- Token handed to a resolver, mirroring the `TemplateToken` interface:
`raw` is the full `${...}` text, the interior is split on `:` into
`key` and `args`. -/
structure TemplateToken where
  raw : String
  key : String
  args : List String
deriving DecidableEq, Repr

/-- Build the token for an interior `inner` (the characters between the
braces), as both `parseTemplateTokens` and `replaceTemplateTokens` do. -/
def mkToken (inner : List Char) : TemplateToken :=
  let parts := splitOnColon inner
  { raw := String.mk ('$' :: '\x7b' :: inner ++ ['\x7d'])
    key := String.mk (parts.headD [])
    args := (parts.tail).map String.mk }

/-- Core scanner of `replaceTemplateTokens`: at a `${`, the regex matches
the maximal nonempty run of non-`}` characters followed by `}`; `${}` or an
unterminated `${` do not match, and scanning resumes one character later,
exactly as the JavaScript regex engine behaves under `String.replace`. -/
def renderChars (resolver : TemplateToken → Option String) : List Char → List Char
  | [] => []
  | [c] => [c]
  | c :: d :: cs =>
    if c = '$' ∧ d = '{' then
      match h : splitAtBrace cs with
      | some (inner, rest) =>
        if inner.isEmpty then c :: renderChars resolver (d :: cs)
        else
          (match resolver (mkToken inner) with
           | some v => v.data
           | none => (mkToken inner).raw.data) ++ renderChars resolver rest
      | none => c :: renderChars resolver (d :: cs)
    else c :: renderChars resolver (d :: cs)
termination_by l => l.length
decreasing_by
  · simp
  · simpa using Nat.lt_succ_of_lt (Nat.lt_succ_of_lt (splitAtBrace_length h))
  · simp
  · simp

/-- Embedding of `replaceTemplateTokens(source, resolver)`: every token is
replaced by the resolver's value, and a token the resolver returns
`undefined` for is kept as its original literal text (`value ?? match`). -/
def replaceTemplateTokens (source : String) (resolver : TemplateToken → Option String) : String :=
  String.mk (renderChars resolver source.data)

/-- Token scanner used by `parseTemplateTokens`, built on the same grammar. -/
def parseChars : List Char → List TemplateToken
  | [] => []
  | [_] => []
  | c :: d :: cs =>
    if c = '$' ∧ d = '{' then
      match h : splitAtBrace cs with
      | some (inner, rest) =>
        if inner.isEmpty then parseChars (d :: cs)
        else mkToken inner :: parseChars rest
      | none => parseChars (d :: cs)
    else parseChars (d :: cs)
termination_by l => l.length
decreasing_by
  · simp
  · simpa using Nat.lt_succ_of_lt (Nat.lt_succ_of_lt (splitAtBrace_length h))
  · simp
  · simp

/-- Embedding of `parseTemplateTokens(source)`. -/
def parseTemplateTokens (source : String) : List TemplateToken :=
  parseChars source.data

theorem renderChars_none : ∀ (l : List Char), renderChars (fun _ => none) l = l := by
  have main : ∀ (n : Nat) (l : List Char), l.length ≤ n →
      renderChars (fun _ => none) l = l := by
    intro n
    induction n with
    | zero =>
      intro l hl
      rcases l with _ | ⟨c, cs⟩
      · rw [renderChars]
      · simp at hl
    | succ n ih =>
      intro l hl
      rcases l with _ | ⟨c, cs⟩
      · rw [renderChars]
      rcases cs with _ | ⟨d, cs⟩
      · rw [renderChars]
      rw [renderChars]
      have hd : (d :: cs).length ≤ n := by simp at hl ⊢; omega
      split
      case isTrue hcd =>
        obtain ⟨hc1, hd1⟩ := hcd
        subst hc1
        subst hd1
        split
        case h_1 inner rest heq =>
          split
          case isTrue hinner => rw [ih _ hd]
          case isFalse hinner =>
            have hrest : rest.length ≤ n := by
              have := splitAtBrace_length heq
              simp at hl
              omega
            rw [ih _ hrest]
            simp [mkToken, splitAtBrace_eq heq]
        case h_2 heq => rw [ih _ hd]
      case isFalse hcd => rw [ih _ hd]
  intro l
  exact main l.length l le_rfl

/-- C1. Rendering any text with a resolver that returns no value for every
token is the identity: each unresolvable `${...}` token is preserved as its
original literal text. -/
theorem render_always_undefined_is_identity (text : String) :
    replaceTemplateTokens text (fun _ => none) = text := by
  rcases text with ⟨data⟩
  simp [replaceTemplateTokens, renderChars_none]

/-! ## Data model (`actionTypes.ts`) -/

inductive ScriptLanguage
  | bash
  | powershell
  | node
  | python
deriving DecidableEq, Repr

structure ActionParameter where
  name : String
  prompt : Option String := none
  defaultValue : Option String := none
  required : Option Bool := none
deriving DecidableEq, Repr

structure ActionEnvironmentVariable where
  key : String
  value : Option String := none
  fromSecret : Option Bool := none
  secretKey : Option String := none
deriving DecidableEq, Repr

structure ActionChainLink where
  targetActionId : String
  passOutputAs : Option String := none
deriving DecidableEq, Repr

/-- The fields of `ActionDefinition` consulted by the execution engine.
Metadata fields (`description`, `tags`, `createdAt`, `updatedAt`) are not
read by any of the modelled code and are omitted.  An absent `chain` and an
empty `chain` behave identically in `runChainedActions`, so `chain` is a
plain list. -/
structure ActionDefinition where
  id : String
  name : String
  language : ScriptLanguage
  script : String
  env : List ActionEnvironmentVariable := []
  parameters : List ActionParameter := []
  workingDirectory : Option String := none
  runInOutputChannel : Option Bool := none
  chain : List ActionChainLink := []
deriving DecidableEq, Repr

/-! ## Parameter descriptors extracted from the script
(`extractParameterDescriptors` in `templateEngine.ts`) -/

structure ParameterDescriptor where
  name : String
  defaultValue : Option String
  prompt : Option String
  raw : String
deriving DecidableEq, Repr

/-- Loop body of `extractParameterDescriptors`: keep tokens whose key is
`param`, skip a token whose first argument is missing or empty (JavaScript
`!name`), and de-duplicate by name, first occurrence winning. -/
def extractDescriptors : List TemplateToken → List String → List ParameterDescriptor
  | [], _ => []
  | t :: rest, seen =>
    if t.key ≠ "param" then extractDescriptors rest seen
    else
      match t.args.head? with
      | none => extractDescriptors rest seen
      | some name =>
        if name = "" ∨ name ∈ seen then extractDescriptors rest seen
        else
          { name := name
            defaultValue := t.args[1]?
            prompt := t.args[2]?
            raw := t.raw } :: extractDescriptors rest (name :: seen)

/-- Embedding of `extractParameterDescriptors(source)`. -/
def extractParameterDescriptors (source : String) : List ParameterDescriptor :=
  extractDescriptors (parseTemplateTokens source) []

/-! ## Parameter resolver (`parameterResolver.ts`) -/

structure ParameterMetadata where
  name : String
  prompt : Option String
  defaultValue : Option String
  required : Option Bool
deriving DecidableEq, Repr

/-- JavaScript `Map.prototype.set` semantics on a list of metadata entries
keyed by name: replace in place when the key exists, else append. -/
def metaSet : List ParameterMetadata → ParameterMetadata → List ParameterMetadata
  | [], m => [m]
  | x :: rest, m => if x.name = m.name then m :: rest else x :: metaSet rest m

/-- JavaScript `Map.prototype.has` on the same representation. -/
def metaHas (l : List ParameterMetadata) (n : String) : Bool :=
  l.any (fun x => x.name = n)

/-- Metadata recorded for an explicitly declared parameter. -/
def metaOfParameter (p : ActionParameter) : ParameterMetadata :=
  { name := p.name, prompt := p.prompt, defaultValue := p.defaultValue, required := p.required }

/-- Metadata recorded for an in-script `${param:...}` token that is not
already declared: it becomes implicitly required. -/
def metaOfDescriptor (d : ParameterDescriptor) : ParameterMetadata :=
  { name := d.name, prompt := d.prompt, defaultValue := d.defaultValue, required := some true }

/-- Embedding of `ParameterResolver.combineMetadata`: explicit declarations
are inserted first (so they take precedence); a script token is added only
when its name is not already present. -/
def combineMetadata (action : ActionDefinition) : List ParameterMetadata :=
  let fromDefinition :=
    action.parameters.foldl (fun acc p => metaSet acc (metaOfParameter p)) []
  (extractParameterDescriptors action.script).foldl
    (fun acc d => if metaHas acc d.name then acc else metaSet acc (metaOfDescriptor d))
    fromDefinition

/-- JavaScript object-assignment semantics on an association list with
unique keys: replace in place when the key exists, else append. -/
def mapSet : List (String × String) → String → String → List (String × String)
  | [], k, v => [(k, v)]
  | (k', v') :: rest, k, v =>
    if k' = k then (k, v) :: rest else (k', v') :: mapSet rest k v

/-- First-match lookup, the JavaScript property read on such a list. -/
def mapGet (m : List (String × String)) (k : String) : Option String :=
  (m.find? (fun e => e.1 = k)).map (fun e => e.2)

/-- Decision made by `ParameterResolver.promptForValue` without showing an
input box: with a truthy default (`metadata.defaultValue &&` — so a defined,
nonempty string) and a falsy `required`, the default is returned directly.
Otherwise `window.showInputBox` is consulted, modelled by the `oracle`; the
second component records that an interactive prompt was issued. -/
def promptForValue (oracle : ParameterMetadata → Option String)
    (m : ParameterMetadata) : Option String × Bool :=
  match m.defaultValue with
  | some d =>
    if d ≠ "" ∧ m.required ≠ some true then (some d, false)
    else (oracle m, true)
  | none => (oracle m, true)

/-- Result of `ParameterResolver.resolve`: the final name-to-value map and,
as instrumentation of the `window.showInputBox` calls, the names that were
interactively prompted. -/
structure ResolveOutcome where
  values : List (String × String)
  prompted : List String
deriving DecidableEq, Repr

/-- Loop of `ParameterResolver.resolve`: a descriptor whose name is already
bound is skipped; otherwise `promptForValue` supplies a value, and a missing
answer leaves the parameter out of the result. -/
def resolveLoop (oracle : ParameterMetadata → Option String) :
    List ParameterMetadata → List (String × String) → List String → ResolveOutcome
  | [], results, prompted => ⟨results, prompted⟩
  | d :: rest, results, prompted =>
    if (mapGet results d.name).isSome then resolveLoop oracle rest results prompted
    else
      match promptForValue oracle d with
      | (v?, didPrompt) =>
        let prompted' := if didPrompt then prompted ++ [d.name] else prompted
        match v? with
        | some v => resolveLoop oracle rest (mapSet results d.name v) prompted'
        | none => resolveLoop oracle rest results prompted'

/-- Embedding of `ParameterResolver.resolve(action, { providedValues })`:
the result map starts as a copy of the provided values. -/
def resolve (oracle : ParameterMetadata → Option String) (action : ActionDefinition)
    (providedValues : List (String × String)) : ResolveOutcome :=
  resolveLoop oracle (combineMetadata action) providedValues []

/-! ## Lemmas about the map and metadata operations -/

theorem mapGet_cons (k' v' : String) (rest : List (String × String)) (q : String) :
    mapGet ((k', v') :: rest) q = if k' = q then some v' else mapGet rest q := by
  by_cases h : k' = q <;> simp [mapGet, List.find?_cons, h]

theorem mapGet_mapSet_self (m : List (String × String)) (k v : String) :
    mapGet (mapSet m k v) k = some v := by
  induction m with
  | nil => simp [mapSet, mapGet, List.find?]
  | cons e rest ih =>
    obtain ⟨k', v'⟩ := e
    by_cases h : k' = k
    · rw [mapSet, if_pos h, mapGet_cons, if_pos rfl]
    · rw [mapSet, if_neg h, mapGet_cons, if_neg h, ih]

theorem mapGet_mapSet_ne (m : List (String × String)) {k q : String} (v : String)
    (h : k ≠ q) : mapGet (mapSet m k v) q = mapGet m q := by
  induction m with
  | nil => simp [mapSet, mapGet, List.find?, h]
  | cons e rest ih =>
    obtain ⟨k', v'⟩ := e
    by_cases h' : k' = k
    · subst h'
      rw [mapSet, if_pos rfl, mapGet_cons, if_neg h, mapGet_cons, if_neg h]
    · rw [mapSet, if_neg h', mapGet_cons, mapGet_cons]
      by_cases h'' : k' = q
      · rw [if_pos h'', if_pos h'']
      · rw [if_neg h'', if_neg h'', ih]

theorem metaHas_metaSet (l : List ParameterMetadata) (m : ParameterMetadata) (q : String) :
    metaHas (metaSet l m) q = (metaHas l q || decide (m.name = q)) := by
  induction l with
  | nil => simp [metaSet, metaHas]
  | cons x rest ih =>
    by_cases h : x.name = m.name
    · by_cases hq : x.name = q <;> simp_all [metaSet, metaHas]
    · simp only [metaSet, if_neg h, metaHas, List.any_cons]
      rw [metaHas, metaHas] at ih
      rw [ih]
      cases hq : decide (x.name = q) <;> simp

theorem metaSet_append {l : List ParameterMetadata} {m : ParameterMetadata}
    (h : metaHas l m.name = false) : metaSet l m = l ++ [m] := by
  induction l with
  | nil => simp [metaSet]
  | cons x rest ih =>
    simp only [metaHas, List.any_cons, Bool.or_eq_false_iff] at h
    obtain ⟨h1, h2⟩ := h
    have hx : ¬ x.name = m.name := by simpa using h1
    rw [metaSet, if_neg hx, ih h2]
    simp

theorem metaSet_filter_other {m : ParameterMetadata} {n : String}
    (h : ¬ m.name = n) (l : List ParameterMetadata) :
    (metaSet l m).filter (fun x => x.name = n) = l.filter (fun x => x.name = n) := by
  induction l with
  | nil => simp [metaSet, h]
  | cons x rest ih =>
    rw [metaSet]
    by_cases hx : x.name = m.name
    · have hxn : ¬ x.name = n := fun hh => h (hx.symm.trans hh)
      rw [if_pos hx, List.filter_cons, List.filter_cons]
      simp [h, hxn]
    · rw [if_neg hx, List.filter_cons, List.filter_cons]
      by_cases hq : x.name = n <;> simp [hq, ih]

theorem metaSet_mem_self (l : List ParameterMetadata) (m : ParameterMetadata) :
    m ∈ metaSet l m := by
  induction l with
  | nil => simp [metaSet]
  | cons x rest ih =>
    by_cases h : x.name = m.name
    · simp [metaSet, h]
    · simp only [metaSet, if_neg h]
      exact List.mem_cons_of_mem _ ih

theorem metaSet_mem_preserve {l : List ParameterMetadata} {x m : ParameterMetadata}
    (hx : x ∈ l) (hne : x.name ≠ m.name) : x ∈ metaSet l m := by
  induction l with
  | nil => simp at hx
  | cons y rest ih =>
    by_cases h : y.name = m.name
    · rcases List.mem_cons.mp hx with h1 | h2
      · subst h1; exact absurd h hne
      · simp only [metaSet, if_pos h]
        exact List.mem_cons_of_mem _ h2
    · simp only [metaSet, if_neg h]
      rcases List.mem_cons.mp hx with h1 | h2
      · subst h1; exact List.mem_cons_self ..
      · exact List.mem_cons_of_mem _ (ih h2)

theorem extractDescriptors_names : ∀ (ts : List TemplateToken) (seen : List String),
    ((extractDescriptors ts seen).map (fun d => d.name)).Nodup ∧
    ∀ n ∈ (extractDescriptors ts seen).map (fun d => d.name), n ∉ seen := by
  intro ts
  induction ts with
  | nil => intro seen; simp [extractDescriptors]
  | cons t rest ih =>
    intro seen
    rw [extractDescriptors]
    by_cases hk : t.key ≠ "param"
    · simpa [if_pos hk] using ih seen
    · rw [if_neg hk]
      cases hh : t.args.head? with
      | none => exact ih seen
      | some name =>
        dsimp only
        by_cases hskip : name = "" ∨ name ∈ seen
        · simpa [if_pos hskip] using ih seen
        · rw [if_neg hskip]
          refine ⟨?_, ?_⟩
          · simp only [List.map_cons, List.nodup_cons]
            exact ⟨fun hmem => (ih (name :: seen)).2 name hmem (List.mem_cons_self ..),
              (ih (name :: seen)).1⟩
          · intro n hn
            simp only [List.map_cons, List.mem_cons] at hn
            rcases hn with h1 | h2
            · subst h1
              exact fun hc => hskip (Or.inr hc)
            · exact fun hc => (ih (name :: seen)).2 n h2 (List.mem_cons_of_mem _ hc)

theorem metaHas_foldl_params (ps : List ActionParameter)
    (acc : List ParameterMetadata) (q : String) :
    metaHas (ps.foldl (fun acc p => metaSet acc (metaOfParameter p)) acc) q =
      (metaHas acc q || ps.any (fun p => p.name = q)) := by
  induction ps generalizing acc with
  | nil => simp
  | cons p rest ih =>
    rw [List.foldl_cons, ih, metaHas_metaSet]
    simp [metaOfParameter, Bool.or_assoc]

theorem foldl_metaSet_fresh : ∀ (ps : List ActionParameter) (acc : List ParameterMetadata),
    (∀ p ∈ ps, metaHas acc p.name = false) → (ps.map (fun p => p.name)).Nodup →
    ps.foldl (fun acc p => metaSet acc (metaOfParameter p)) acc =
      acc ++ ps.map metaOfParameter := by
  intro ps
  induction ps with
  | nil => intro acc _ _; simp
  | cons p rest ih =>
    intro acc hfresh hnodup
    rw [List.foldl_cons]
    have hp : metaHas acc (metaOfParameter p).name = false :=
      hfresh p (List.mem_cons_self ..)
    rw [metaSet_append hp]
    simp only [List.map_cons, List.nodup_cons] at hnodup
    have hrest : ∀ q ∈ rest, metaHas (acc ++ [metaOfParameter p]) q.name = false := by
      intro q hq
      have h1 : metaHas acc q.name = false := hfresh q (List.mem_cons_of_mem _ hq)
      have h2 : ¬ p.name = q.name := by
        intro hc
        exact hnodup.1 (hc ▸ List.mem_map_of_mem (fun r => r.name) hq)
      simp [metaHas, List.any_append, h2, metaOfParameter]
      simpa [metaHas] using h1
    rw [ih _ hrest hnodup.2]
    simp

theorem filter_foldl_script (ds : List ParameterDescriptor) :
    ∀ (acc : List ParameterMetadata) (n : String), metaHas acc n = true →
    ((ds.foldl (fun acc d =>
        if metaHas acc d.name then acc else metaSet acc (metaOfDescriptor d)) acc).filter
      (fun m => m.name = n)) = acc.filter (fun m => m.name = n) ∧
    metaHas (ds.foldl (fun acc d =>
        if metaHas acc d.name then acc else metaSet acc (metaOfDescriptor d)) acc) n = true := by
  induction ds with
  | nil => intro acc n h; exact ⟨rfl, h⟩
  | cons d rest ih =>
    intro acc n h
    rw [List.foldl_cons]
    by_cases hd : metaHas acc d.name
    · rw [if_pos hd]
      exact ih acc n h
    · rw [if_neg hd]
      have hdn : ¬ (metaOfDescriptor d).name = n := by
        intro hc
        rw [metaOfDescriptor] at hc
        simp only at hc
        rw [hc] at hd
        exact hd h
      have h' : metaHas (metaSet acc (metaOfDescriptor d)) n = true := by
        rw [metaHas_metaSet, h]
        simp
      obtain ⟨h1, h2⟩ := ih (metaSet acc (metaOfDescriptor d)) n h'
      exact ⟨h1.trans (metaSet_filter_other hdn acc), h2⟩

theorem filter_map_params : ∀ (ps : List ActionParameter) (p : ActionParameter),
    (ps.map (fun q => q.name)).Nodup → p ∈ ps →
    (ps.map metaOfParameter).filter (fun m => m.name = p.name) = [metaOfParameter p] := by
  intro ps
  induction ps with
  | nil => intro p _ hp; simp at hp
  | cons q rest ih =>
    intro p hnd hp
    simp only [List.map_cons, List.nodup_cons] at hnd
    rw [List.map_cons, List.filter_cons]
    rcases List.mem_cons.mp hp with h1 | h2
    · subst h1
      simp only [metaOfParameter, decide_eq_true_eq]
      rw [if_pos trivial]
      have : (rest.map metaOfParameter).filter (fun m => m.name = p.name) = [] := by
        rw [List.filter_eq_nil_iff]
        intro m hm
        obtain ⟨r, hr, hrm⟩ := List.mem_map.mp hm
        subst hrm
        simp only [metaOfParameter, decide_eq_true_eq]
        intro hc
        exact hnd.1 (hc ▸ List.mem_map_of_mem (fun s => s.name) hr)
      rw [this]
    · have hq : ¬ (metaOfParameter q).name = p.name := by
        simp only [metaOfParameter]
        intro hc
        exact hnd.1 (hc ▸ List.mem_map_of_mem (fun s => s.name) h2)
      simp only [decide_eq_true_eq]
      rw [if_neg hq]
      exact ih p hnd.2 h2

theorem foldl_script_mem_preserve :
    ∀ (ds : List ParameterDescriptor) (acc : List ParameterMetadata) (x : ParameterMetadata),
    x ∈ acc → (∀ e ∈ ds, e.name ≠ x.name) →
    x ∈ ds.foldl (fun acc d =>
        if metaHas acc d.name then acc else metaSet acc (metaOfDescriptor d)) acc := by
  intro ds
  induction ds with
  | nil => intro acc x hx _; simpa using hx
  | cons e rest ih =>
    intro acc x hx hne
    rw [List.foldl_cons]
    by_cases hd : metaHas acc e.name
    · rw [if_pos hd]
      exact ih acc x hx (fun e' he' => hne e' (List.mem_cons_of_mem _ he'))
    · rw [if_neg hd]
      have hxe : x.name ≠ (metaOfDescriptor e).name := by
        simp only [metaOfDescriptor]
        exact fun hc => hne e (List.mem_cons_self ..) hc.symm
      exact ih _ x (metaSet_mem_preserve hx hxe)
        (fun e' he' => hne e' (List.mem_cons_of_mem _ he'))

theorem foldl_script_mem :
    ∀ (ds : List ParameterDescriptor) (acc : List ParameterMetadata) (d : ParameterDescriptor),
    (ds.map (fun e => e.name)).Nodup → d ∈ ds → metaHas acc d.name = false →
    metaOfDescriptor d ∈ ds.foldl (fun acc d =>
        if metaHas acc d.name then acc else metaSet acc (metaOfDescriptor d)) acc := by
  intro ds
  induction ds with
  | nil => intro acc d _ hd _; simp at hd
  | cons e rest ih =>
    intro acc d hnd hd hfresh
    simp only [List.map_cons, List.nodup_cons] at hnd
    rw [List.foldl_cons]
    rcases List.mem_cons.mp hd with h1 | h2
    · subst h1
      rw [if_neg (by simp [hfresh])]
      refine foldl_script_mem_preserve rest _ _ (metaSet_mem_self acc _) ?_
      intro e' he'
      simp only [metaOfDescriptor]
      intro hc
      exact hnd.1 (hc ▸ List.mem_map_of_mem (fun s => s.name) he')
    · have hen : e.name ≠ d.name := by
        intro hc
        exact hnd.1 (hc ▸ List.mem_map_of_mem (fun s => s.name) h2)
      by_cases hacc : metaHas acc e.name
      · rw [if_pos hacc]
        exact ih acc d hnd.2 h2 hfresh
      · rw [if_neg hacc]
        refine ih _ d hnd.2 h2 ?_
        rw [metaHas_metaSet, hfresh]
        simp only [Bool.false_or, metaOfDescriptor]
        simpa using hen

/-- C5. Merging parameter declarations: an explicit declaration on the
action always wins over a same-named `${param:...}` script token — the
merged set contains exactly one entry for that name, carrying the declared
metadata (in particular the declared default, not the in-script default) —
and any script token whose name matches no explicit declaration is added to
the merged set as an implicitly required parameter. -/
theorem parameter_merge_precedence :
    (∀ (action : ActionDefinition) (p : ActionParameter),
       (action.parameters.map (fun q => q.name)).Nodup → p ∈ action.parameters →
       (combineMetadata action).filter (fun m => m.name = p.name) = [metaOfParameter p]) ∧
    (∀ (action : ActionDefinition) (d : ParameterDescriptor),
       d ∈ extractParameterDescriptors action.script →
       (∀ p ∈ action.parameters, p.name ≠ d.name) →
       metaOfDescriptor d ∈ combineMetadata action) := by
  constructor
  · intro action p hnd hp
    have hfrom : action.parameters.foldl (fun acc p => metaSet acc (metaOfParameter p)) [] =
        action.parameters.map metaOfParameter := by
      simpa using foldl_metaSet_fresh action.parameters [] (fun _ _ => rfl) hnd
    have hhas : metaHas
        (action.parameters.foldl (fun acc p => metaSet acc (metaOfParameter p)) []) p.name = true := by
      rw [metaHas_foldl_params]
      have : action.parameters.any (fun q => q.name = p.name) = true :=
        List.any_eq_true.mpr ⟨p, hp, by simp⟩
      rw [this]
      simp
    simp only [combineMetadata]
    obtain ⟨h1, _⟩ := filter_foldl_script (extractParameterDescriptors action.script) _ p.name hhas
    rw [h1, hfrom, filter_map_params action.parameters p hnd hp]
  · intro action d hd hne
    have hnodup : ((extractParameterDescriptors action.script).map (fun e => e.name)).Nodup :=
      (extractDescriptors_names (parseTemplateTokens action.script) []).1
    have hfresh : metaHas
        (action.parameters.foldl (fun acc p => metaSet acc (metaOfParameter p)) []) d.name = false := by
      rw [metaHas_foldl_params]
      have : action.parameters.any (fun q => q.name = d.name) = false := by
        simp only [List.any_eq_false, decide_eq_true_eq]
        exact hne
      rw [this]
      simp [metaHas]
    simp only [combineMetadata]
    exact foldl_script_mem _ _ d hnodup hd hfresh

/-- Witness for C5 at the concrete inputs of the spec: a declared parameter
`P` with default `D1` beats the in-script token `${param:P:D2}`, and an
undeclared token `${param:Q:D3}` is added as implicitly required. -/
theorem parameter_merge_precedence_witness :
    (combineMetadata
        { id := "a1", name := "A", language := ScriptLanguage.bash,
          script := "echo $\x7bparam:P:D2\x7d",
          parameters := [{ name := "P", defaultValue := some "D1" }] }).filter
        (fun m => m.name = "P") =
      [{ name := "P", prompt := none, defaultValue := some "D1", required := none }] ∧
    ({ name := "Q", prompt := none, defaultValue := some "D3", required := some true } :
        ParameterMetadata) ∈
      combineMetadata
        { id := "a2", name := "B", language := ScriptLanguage.bash,
          script := "echo $\x7bparam:Q:D3\x7d", parameters := [] } := by
  constructor
  · exact parameter_merge_precedence.1
      { id := "a1", name := "A", language := ScriptLanguage.bash,
        script := "echo $\x7bparam:P:D2\x7d",
        parameters := [{ name := "P", defaultValue := some "D1" }] }
      { name := "P", defaultValue := some "D1" } (by decide) (by decide)
  · refine parameter_merge_precedence.2
      { id := "a2", name := "B", language := ScriptLanguage.bash,
        script := "echo $\x7bparam:Q:D3\x7d", parameters := [] }
      { name := "Q", defaultValue := some "D3", prompt := none,
        raw := "$\x7bparam:Q:D3\x7d" } ?_ (by decide)
    simp [extractParameterDescriptors, parseTemplateTokens, parseChars, splitAtBrace,
      extractDescriptors, mkToken, splitOnColon]

theorem metaSet_names_mem {l : List ParameterMetadata} {m : ParameterMetadata} {q : String}
    (h : q ∈ (metaSet l m).map (fun x => x.name)) :
    q ∈ l.map (fun x => x.name) ∨ q = m.name := by
  induction l with
  | nil => simpa [metaSet] using h
  | cons x rest ih =>
    by_cases hx : x.name = m.name
    · simp only [metaSet, if_pos hx, List.map_cons, List.mem_cons] at h
      rcases h with h1 | h2
      · exact Or.inr h1
      · exact Or.inl (by simp [h2])
    · simp only [metaSet, if_neg hx, List.map_cons, List.mem_cons] at h ⊢
      rcases h with h1 | h2
      · exact Or.inl (Or.inl h1)
      · rcases ih h2 with h3 | h4
        · exact Or.inl (Or.inr h3)
        · exact Or.inr h4

theorem metaSet_names_nodup {l : List ParameterMetadata} (m : ParameterMetadata)
    (h : (l.map (fun x => x.name)).Nodup) :
    ((metaSet l m).map (fun x => x.name)).Nodup := by
  induction l with
  | nil => simp [metaSet]
  | cons x rest ih =>
    simp only [List.map_cons, List.nodup_cons] at h
    by_cases hx : x.name = m.name
    · simp only [metaSet, if_pos hx, List.map_cons, List.nodup_cons]
      exact ⟨hx ▸ h.1, h.2⟩
    · simp only [metaSet, if_neg hx, List.map_cons, List.nodup_cons]
      refine ⟨fun hc => ?_, ih h.2⟩
      rcases metaSet_names_mem hc with h1 | h2
      · exact h.1 h1
      · exact hx h2

theorem combineMetadata_names_nodup (action : ActionDefinition) :
    ((combineMetadata action).map (fun m => m.name)).Nodup := by
  have fold1 : ∀ (ps : List ActionParameter) (acc : List ParameterMetadata),
      (acc.map (fun x => x.name)).Nodup →
      ((ps.foldl (fun acc p => metaSet acc (metaOfParameter p)) acc).map
        (fun x => x.name)).Nodup := by
    intro ps
    induction ps with
    | nil => intro acc h; simpa using h
    | cons p rest ih =>
      intro acc h
      exact ih _ (metaSet_names_nodup _ h)
  have fold2 : ∀ (ds : List ParameterDescriptor) (acc : List ParameterMetadata),
      (acc.map (fun x => x.name)).Nodup →
      ((ds.foldl (fun acc d =>
          if metaHas acc d.name then acc else metaSet acc (metaOfDescriptor d)) acc).map
        (fun x => x.name)).Nodup := by
    intro ds
    induction ds with
    | nil => intro acc h; simpa using h
    | cons d rest ih =>
      intro acc h
      rw [List.foldl_cons]
      by_cases hd : metaHas acc d.name
      · rw [if_pos hd]; exact ih _ h
      · rw [if_neg hd]; exact ih _ (metaSet_names_nodup _ h)
  simp only [combineMetadata]
  exact fold2 _ _ (fold1 action.parameters [] (by simp))

/-! ## Behaviour of the resolve loop -/

theorem resolveLoop_preserves (oracle : ParameterMetadata → Option String) :
    ∀ (ds : List ParameterMetadata) (results : List (String × String))
      (prompted : List String) (P v : String),
    mapGet results P = some v → P ∉ prompted →
    mapGet (resolveLoop oracle ds results prompted).values P = some v ∧
    P ∉ (resolveLoop oracle ds results prompted).prompted := by
  intro ds
  induction ds with
  | nil => intro results prompted P v h1 h2; exact ⟨h1, h2⟩
  | cons d rest ih =>
    intro results prompted P v h1 h2
    rw [resolveLoop]
    by_cases hg : (mapGet results d.name).isSome
    · rw [if_pos hg]
      exact ih results prompted P v h1 h2
    · rw [if_neg hg]
      have hdP : d.name ≠ P := by
        intro hc
        rw [hc, h1] at hg
        exact hg rfl
      rcases hpv : promptForValue oracle d with ⟨v?, dp⟩
      dsimp only
      have hP' : P ∉ (if dp = true then prompted ++ [d.name] else prompted) := by
        cases dp <;> simp [h2] <;> exact fun hc => hdP hc.symm
      cases v? with
      | some w =>
        exact ih _ _ P v (by rw [mapGet_mapSet_ne _ _ hdP, h1]) hP'
      | none =>
        exact ih _ _ P v h1 hP'

theorem resolveLoop_default (oracle : ParameterMetadata → Option String) :
    ∀ (ds : List ParameterMetadata) (results : List (String × String))
      (prompted : List String) (d : ParameterMetadata) (v : String),
    (ds.map (fun e => e.name)).Nodup → d ∈ ds →
    mapGet results d.name = none → d.name ∉ prompted →
    d.defaultValue = some v → v ≠ "" → d.required ≠ some true →
    mapGet (resolveLoop oracle ds results prompted).values d.name = some v ∧
    d.name ∉ (resolveLoop oracle ds results prompted).prompted := by
  intro ds
  induction ds with
  | nil => intro results prompted d v _ hd; simp at hd
  | cons x rest ih =>
    intro results prompted d v hnd hd hres hpr hdv hne hreq
    simp only [List.map_cons, List.nodup_cons] at hnd
    rw [resolveLoop]
    rcases List.mem_cons.mp hd with h1 | h2
    · rw [← h1]
      rw [if_neg (by simp [hres])]
      have hpf : promptForValue oracle d = (some v, false) := by
        simp only [promptForValue, hdv]
        rw [if_pos ⟨hne, hreq⟩]
      rw [hpf]
      dsimp only
      exact resolveLoop_preserves oracle rest _ _ d.name v
        (mapGet_mapSet_self results d.name v) (by simpa using hpr)
    · have hxd : x.name ≠ d.name := by
        intro hc
        exact hnd.1 (hc ▸ List.mem_map_of_mem (fun e => e.name) h2)
      by_cases hg : (mapGet results x.name).isSome
      · rw [if_pos hg]
        exact ih results prompted d v hnd.2 h2 hres hpr hdv hne hreq
      · rw [if_neg hg]
        rcases hpv : promptForValue oracle x with ⟨v?, dp⟩
        dsimp only
        have hpr' : d.name ∉ (if dp = true then prompted ++ [x.name] else prompted) := by
          cases dp <;> simp [hpr] <;> exact fun hc => hxd hc.symm
        cases v? with
        | some w =>
          exact ih _ _ d v hnd.2 h2 (by rw [mapGet_mapSet_ne _ _ hxd, hres]) hpr' hdv hne hreq
        | none =>
          exact ih _ _ d v hnd.2 h2 hres hpr' hdv hne hreq

/-- C6. If `providedValues` contains `P`, the resolver never issues an
interactive prompt for `P`, and the returned map binds `P` to exactly the
externally supplied value. -/
theorem override_precedence (oracle : ParameterMetadata → Option String)
    (action : ActionDefinition) (provided : List (String × String)) (P v : String)
    (h : mapGet provided P = some v) :
    mapGet (resolve oracle action provided).values P = some v ∧
    P ∉ (resolve oracle action provided).prompted :=
  resolveLoop_preserves oracle (combineMetadata action) provided [] P v h (by simp)

/-- Witness for C6: a provided value for a declared, required parameter is
used verbatim and the parameter is not prompted. -/
theorem override_precedence_witness :
    mapGet (resolve (fun _ => some "typed")
      { id := "w6", name := "W", language := ScriptLanguage.bash, script := "",
        parameters := [{ name := "P", required := some true }] }
      [("P", "given")]).values "P" = some "given" ∧
    "P" ∉ (resolve (fun _ => some "typed")
      { id := "w6", name := "W", language := ScriptLanguage.bash, script := "",
        parameters := [{ name := "P", required := some true }] }
      [("P", "given")]).prompted :=
  override_precedence (fun _ => some "typed")
    { id := "w6", name := "W", language := ScriptLanguage.bash, script := "",
      parameters := [{ name := "P", required := some true }] }
    [("P", "given")] "P" "given" (by decide)

/-- C7 counterexample: a merged declaration that is not required and has a
default value — the empty string, which is falsy in JavaScript — is
interactively prompted, and the prompt's answer rather than the default is
used, refuting the claim at this input. -/
theorem empty_default_prompts_counterexample :
    (({ name := "P", prompt := none, defaultValue := some "", required := some false } :
        ParameterMetadata) ∈
      combineMetadata
        { id := "c7", name := "C", language := ScriptLanguage.bash, script := "",
          parameters := [{ name := "P", defaultValue := some "", required := some false }] }) ∧
    (resolve (fun _ => some "typed")
      { id := "c7", name := "C", language := ScriptLanguage.bash, script := "",
        parameters := [{ name := "P", defaultValue := some "", required := some false }] }
      []).prompted = ["P"] ∧
    (resolve (fun _ => some "typed")
      { id := "c7", name := "C", language := ScriptLanguage.bash, script := "",
        parameters := [{ name := "P", defaultValue := some "", required := some false }] }
      []).values = [("P", "typed")] := by
  refine ⟨?_, ?_, ?_⟩ <;>
    simp [resolve, resolveLoop, combineMetadata, extractParameterDescriptors,
      parseTemplateTokens, parseChars, extractDescriptors, metaSet, metaHas,
      metaOfParameter, promptForValue, mapGet, mapSet, List.find?]

/-- C7 (amended): a merged declaration that is not required and has a
nonempty default value, with no externally supplied value, resolves to the
default without an interactive prompt. -/
theorem default_used_without_prompt (oracle : ParameterMetadata → Option String)
    (action : ActionDefinition) (provided : List (String × String))
    (d : ParameterMetadata) (v : String)
    (hd : d ∈ combineMetadata action) (hreq : d.required ≠ some true)
    (hv : d.defaultValue = some v) (hne : v ≠ "")
    (hprov : mapGet provided d.name = none) :
    mapGet (resolve oracle action provided).values d.name = some v ∧
    d.name ∉ (resolve oracle action provided).prompted :=
  resolveLoop_default oracle (combineMetadata action) provided [] d v
    (combineMetadata_names_nodup action) hd hprov (by simp) hv hne hreq

/-- Witness for the amended C7: a non-required declaration with nonempty
default `D1` resolves to `D1` without prompting. -/
theorem default_used_without_prompt_witness :
    mapGet (resolve (fun _ => some "typed")
      { id := "w7", name := "W", language := ScriptLanguage.bash, script := "",
        parameters := [{ name := "P", defaultValue := some "D1" }] } []).values "P" =
      some "D1" ∧
    "P" ∉ (resolve (fun _ => some "typed")
      { id := "w7", name := "W", language := ScriptLanguage.bash, script := "",
        parameters := [{ name := "P", defaultValue := some "D1" }] } []).prompted := by
  refine default_used_without_prompt (fun _ => some "typed")
    { id := "w7", name := "W", language := ScriptLanguage.bash, script := "",
      parameters := [{ name := "P", defaultValue := some "D1" }] } []
    { name := "P", prompt := none, defaultValue := some "D1", required := none }
    "D1" ?_ (by decide) (by decide) (by decide) (by decide)
  simp [combineMetadata, extractParameterDescriptors, parseTemplateTokens,
    parseChars, extractDescriptors, metaSet, metaOfParameter]

/-! ## Path normalization (`actionExecutor.ts`)

`process.platform` is read ambiently by the executor; it is modelled as an
explicit `Platform` argument (the code only distinguishes `win32`). -/

inductive Platform
  | win32
  | posixLike
deriving DecidableEq, Repr

inductive BashImplementation
  | posix
  | wsl
  | gitBash
  | other
deriving DecidableEq, Repr

/-- Test of `/^([a-zA-Z]):[\\/]/`: an ASCII letter, a colon, then a slash
or backslash. -/
def isDriveLetterPattern (value : String) : Bool :=
  match value.data with
  | c :: ':' :: s :: _ => c.isAlpha && (s == '\\' || s == '/')
  | _ => false

/-- Test of `/^\/mnt\//i` (the slashes are case-insensitive-neutral). -/
def startsWithMnt (value : String) : Bool :=
  match value.data with
  | '/' :: m :: n :: t :: '/' :: _ =>
    (m == 'm' || m == 'M') && (n == 'n' || n == 'N') && (t == 't' || t == 'T')
  | _ => false

/-- Characters the JavaScript `.` (without the `s` flag) does not match. -/
def isLineTerminator (c : Char) : Bool :=
  c == '\n' || c == '\r' || c == '\u2028' || c == '\u2029'

/-- Embedding of `convertWindowsPathToForwardSlash`: `value.replace(/\\/g, "/")`. -/
def convertWindowsPathToForwardSlash (value : String) : String :=
  String.mk (value.data.map (fun c => if c = '\\' then '/' else c))

/-- Embedding of `convertWindowsPathToWsl`: an already-`/mnt/` path passes
through; a drive-letter path (where `(.*)$` additionally requires the
remainder to be free of line terminators) becomes `/mnt/<lower drive>/` plus
the remainder with backslashes flipped and leading slashes stripped; any
other value falls back to forward-slash conversion. -/
def convertWindowsPathToWsl (value : String) : String :=
  if startsWithMnt value then value
  else
    match value.data with
    | c :: ':' :: s :: rest =>
      if c.isAlpha && (s == '\\' || s == '/') && rest.all (fun ch => !isLineTerminator ch) then
        String.mk ('/' :: 'm' :: 'n' :: 't' :: '/' :: c.toLower :: '/' ::
          ((rest.map (fun ch => if ch = '\\' then '/' else ch)).dropWhile (fun ch => ch = '/')))
      else convertWindowsPathToForwardSlash value
    | _ => convertWindowsPathToForwardSlash value

/-- Embedding of `normalizePathForShell`: only `bash` on Windows rewrites;
a value not matching the drive-letter pattern, or containing a semicolon
(the PATH-like heuristic), is returned unchanged; the `wsl` flavor converts
to `/mnt/...`, any other flavor just flips backslashes. -/
def normalizePathForShell (platform : Platform) (value : String)
    (language : ScriptLanguage) (bashImplementation : Option BashImplementation) : String :=
  if language ≠ ScriptLanguage.bash ∨ platform ≠ Platform.win32 then value
  else if isDriveLetterPattern value = false then value
  else if ';' ∈ value.data then value
  else if bashImplementation = some BashImplementation.wsl then convertWindowsPathToWsl value
  else convertWindowsPathToForwardSlash value

/-- Embedding of `convertScriptPathForBash`. -/
def convertScriptPathForBash (platform : Platform) (scriptPath : String)
    (bashImplementation : Option BashImplementation) : String :=
  if platform ≠ Platform.win32 then scriptPath
  else if bashImplementation = some BashImplementation.wsl then
    convertWindowsPathToWsl scriptPath
  else convertWindowsPathToForwardSlash scriptPath

/-- C8. Path normalization for bash on Windows: `C:\Users\dev\file.sh`
becomes `/mnt/c/Users/dev/file.sh` under the `wsl` flavor and
`C:/Users/dev/file.sh` under `git-bash`/`other`; an already-`/mnt/`-style
value passes through unchanged; values containing a semicolon or not
matching the drive-letter pattern are returned unchanged. -/
theorem windows_bash_path_rewrite :
    normalizePathForShell Platform.win32 "C:\\Users\\dev\\file.sh"
      ScriptLanguage.bash (some BashImplementation.wsl) = "/mnt/c/Users/dev/file.sh" ∧
    normalizePathForShell Platform.win32 "C:\\Users\\dev\\file.sh"
      ScriptLanguage.bash (some BashImplementation.gitBash) = "C:/Users/dev/file.sh" ∧
    normalizePathForShell Platform.win32 "C:\\Users\\dev\\file.sh"
      ScriptLanguage.bash (some BashImplementation.other) = "C:/Users/dev/file.sh" ∧
    normalizePathForShell Platform.win32 "/mnt/c/Users/dev/file.sh"
      ScriptLanguage.bash (some BashImplementation.wsl) = "/mnt/c/Users/dev/file.sh" ∧
    (∀ (v : String) (impl : Option BashImplementation), ';' ∈ v.data →
       normalizePathForShell Platform.win32 v ScriptLanguage.bash impl = v) ∧
    (∀ (v : String) (impl : Option BashImplementation), isDriveLetterPattern v = false →
       normalizePathForShell Platform.win32 v ScriptLanguage.bash impl = v) := by
  refine ⟨by decide, by decide, by decide, by decide, ?_, ?_⟩
  · intro v impl hsemi
    rw [normalizePathForShell, if_neg (by simp)]
    by_cases hd : isDriveLetterPattern v = false
    · rw [if_pos hd]
    · rw [if_neg hd, if_pos hsemi]
  · intro v impl hd
    rw [normalizePathForShell, if_neg (by simp), if_pos hd]

/-- Witness for C8: a semicolon-containing drive-letter value and a
relative path are both left unchanged. -/
theorem windows_bash_path_rewrite_witness :
    normalizePathForShell Platform.win32 "C:\\a;C:\\b"
      ScriptLanguage.bash (some BashImplementation.wsl) = "C:\\a;C:\\b" ∧
    normalizePathForShell Platform.win32 "relative/path"
      ScriptLanguage.bash (some BashImplementation.wsl) = "relative/path" :=
  ⟨windows_bash_path_rewrite.2.2.2.2.1 "C:\\a;C:\\b" (some BashImplementation.wsl) (by decide),
   windows_bash_path_rewrite.2.2.2.2.2 "relative/path" (some BashImplementation.wsl) (by decide)⟩

/-! ## Chained-output preparation (`actionService.ts`) -/

/-- Characters stripped by `/[\r\n]+$/`. -/
def isTrailingNewlineChar (c : Char) : Bool :=
  c == '\r' || c == '\n'

/-- Embedding of `ActionService.prepareChainedOutput`:
`output.replace(/[\r\n]+$/u, "")` removes the maximal trailing run of
carriage returns and newlines. -/
def prepareChainedOutput (output : String) : String :=
  String.mk (output.data.reverse.dropWhile isTrailingNewlineChar).reverse

theorem dropWhile_append_all {α : Type} (p : α → Bool) :
    ∀ (l₁ l₂ : List α), (∀ x ∈ l₁, p x = true) →
    (l₁ ++ l₂).dropWhile p = l₂.dropWhile p := by
  intro l₁
  induction l₁ with
  | nil => intro l₂ _; simp
  | cons x rest ih =>
    intro l₂ h
    rw [List.cons_append, List.dropWhile_cons, if_pos (h x (List.mem_cons_self ..))]
    exact ih l₂ (fun y hy => h y (List.mem_cons_of_mem _ hy))

/-- C9. The chained-output preparation strips exactly the trailing run of
carriage-return and newline characters, leaving all earlier characters
unchanged; in particular `"hello\r\n\n"` becomes exactly `"hello"`. -/
theorem chained_output_trimming :
    (∀ (a b : List Char), (∀ c ∈ b, c = '\r' ∨ c = '\n') →
       (∀ c, a.getLast? = some c → ¬(c = '\r' ∨ c = '\n')) →
       prepareChainedOutput (String.mk (a ++ b)) = String.mk a) ∧
    prepareChainedOutput "hello\r\n\n" = "hello" := by
  constructor
  · intro a b hb ha
    have hbrev : ∀ c ∈ b.reverse, isTrailingNewlineChar c = true := by
      intro c hc
      rcases hb c (List.mem_reverse.mp hc) with h | h <;> simp [isTrailingNewlineChar, h]
    have hadrop : a.reverse.dropWhile isTrailingNewlineChar = a.reverse := by
      rcases hr : a.reverse with _ | ⟨c, rest⟩
      · rfl
      · have hc : a.getLast? = some c := by
          rw [← List.head?_reverse, hr]
          rfl
        have hfalse : isTrailingNewlineChar c = false := by
          have := ha c hc
          push_neg at this
          simp [isTrailingNewlineChar, this.1, this.2]
        rw [List.dropWhile_cons, hfalse]
        simp
    rw [prepareChainedOutput]
    rw [show (String.mk (a ++ b)).data = a ++ b from rfl]
    rw [List.reverse_append, dropWhile_append_all _ _ _ hbrev, hadrop, List.reverse_reverse]
  · decide

/-- Witness for C9: the general trimming statement applied at
`"hello" ++ "\r\n\n"`. -/
theorem chained_output_trimming_witness :
    prepareChainedOutput (String.mk ("hello".data ++ ['\r', '\n', '\n'])) =
      String.mk "hello".data :=
  chained_output_trimming.1 "hello".data ['\r', '\n', '\n'] (by decide) (by decide)

/-! ## Chain orchestration (`ActionService.runAction` / `runChainedActions`)

`executor.execute` is an external collaborator from the orchestrator's
point of view: its outcome for a given action id and override map is
modelled by an oracle.  A `throws` outcome models a rejected promise. -/

inductive ExecOutcome
  | ok (exitCode : Option Int) (stdout : String)
  | throws (message : String)
deriving DecidableEq, Repr

/-- User-visible events of one `runAction` call, in order: `executed i`
records an invocation of `executor.execute` for action `i`; the warning and
message events mirror the `window.show*Message` calls. -/
inductive ChainEvent
  | executed (id : String)
  | cycleWarning
  | targetNotFound (id : String)
  | chainFailed (name : String)
  | actionNotFound
  | completed (name : String)
  | exitedNonZero (name : String)
  | runFailed (name : String)
deriving DecidableEq, Repr

/-- Override map built for one chain link: `if (link.passOutputAs)` is a
JavaScript truthiness check, so the empty alias yields no override; the
previous stdout is trimmed by `prepareChainedOutput`. -/
def linkOverrides (link : ActionChainLink) (prevStdout : String) : List (String × String) :=
  match link.passOutputAs with
  | some outputName =>
    if outputName = "" then [] else [(outputName, prepareChainedOutput prevStdout)]
  | none => []

/-- Loop body of `runChainedActions`: a link whose target is already in
`visited` aborts with a cycle warning; a missing target aborts with a
not-found warning; otherwise the target is marked visited, the target
executes with the link's override map, and a non-zero exit or a thrown
execution halts the walk. -/
def runChainLinks (actions : List ActionDefinition)
    (exec : String → List (String × String) → ExecOutcome) :
    List String → String → List ActionChainLink → List ChainEvent
  | _, _, [] => []
  | visited, prevStdout, link :: rest =>
    if link.targetActionId ∈ visited then [ChainEvent.cycleWarning]
    else
      match actions.find? (fun candidate => candidate.id = link.targetActionId) with
      | none => [ChainEvent.targetNotFound link.targetActionId]
      | some nextAction =>
        match exec nextAction.id (linkOverrides link prevStdout) with
        | ExecOutcome.throws _ =>
          [ChainEvent.executed nextAction.id, ChainEvent.chainFailed nextAction.name]
        | ExecOutcome.ok code out =>
          ChainEvent.executed nextAction.id ::
            (if code = some 0 then
              runChainLinks actions exec (nextAction.id :: visited) out rest
            else [])

/-- Embedding of `ActionService.runAction`: find the action, execute it,
and on exit code exactly `0` walk its chain (the `visited` set seeded with
the root id) before showing the completion message. -/
def runAction (actions : List ActionDefinition)
    (exec : String → List (String × String) → ExecOutcome) (actionId : String) :
    List ChainEvent :=
  match actions.find? (fun candidate => candidate.id = actionId) with
  | none => [ChainEvent.actionNotFound]
  | some action =>
    match exec action.id [] with
    | ExecOutcome.throws _ => [ChainEvent.executed action.id, ChainEvent.runFailed action.name]
    | ExecOutcome.ok code out =>
      if code = some 0 then
        ChainEvent.executed action.id ::
          runChainLinks actions exec [action.id] out action.chain ++
          [ChainEvent.completed action.name]
      else [ChainEvent.executed action.id, ChainEvent.exitedNonZero action.name]

/-- The ids of the actions executed in a trace. -/
def executedIds (events : List ChainEvent) : List String :=
  events.filterMap (fun e =>
    match e with
    | ChainEvent.executed i => some i
    | _ => none)

theorem runChainLinks_executed (actions : List ActionDefinition)
    (exec : String → List (String × String) → ExecOutcome) :
    ∀ (links : List ActionChainLink) (visited : List String) (prev : String),
    (executedIds (runChainLinks actions exec visited prev links)).Nodup ∧
    ∀ i ∈ executedIds (runChainLinks actions exec visited prev links), i ∉ visited := by
  intro links
  induction links with
  | nil => intro visited prev; simp [runChainLinks, executedIds]
  | cons link rest ih =>
    intro visited prev
    rw [runChainLinks]
    by_cases hv : link.targetActionId ∈ visited
    · rw [if_pos hv]
      simp [executedIds]
    · rw [if_neg hv]
      cases hf : actions.find? (fun candidate => candidate.id = link.targetActionId) with
      | none => simp [executedIds]
      | some next =>
        have hid : next.id = link.targetActionId := by
          simpa using List.find?_some hf
        have hnv : next.id ∉ visited := hid ▸ hv
        dsimp only
        cases hx : exec next.id (linkOverrides link prev) with
        | throws msg => simp [executedIds, hnv]
        | ok code out =>
          dsimp only
          by_cases hc : code = some 0
          · rw [if_pos hc]
            obtain ⟨h1, h2⟩ := ih (next.id :: visited) out
            constructor
            · simp only [executedIds, List.filterMap_cons] at h1 ⊢
              refine List.Nodup.cons ?_ h1
              intro hmem
              exact h2 next.id hmem (List.mem_cons_self ..)
            · intro i hi
              simp only [executedIds, List.filterMap_cons, List.mem_cons] at hi
              rcases hi with h3 | h4
              · exact h3 ▸ hnv
              · exact fun hc' => h2 i h4 (List.mem_cons_of_mem _ hc')
          · rw [if_neg hc]
            simp [executedIds, hnv]

/-- Actions for the concrete cycle scenario: `A`'s chain walks to `B` and
then back to `A`. -/
def cycleDemoActions : List ActionDefinition :=
  [{ id := "A", name := "ActionA", language := ScriptLanguage.bash, script := "",
     chain := [{ targetActionId := "B" }, { targetActionId := "A" }] },
   { id := "B", name := "ActionB", language := ScriptLanguage.bash, script := "" }]

/-- Executor oracle for the cycle scenario: every run exits 0. -/
def cycleDemoExec : String → List (String × String) → ExecOutcome :=
  fun _ _ => ExecOutcome.ok (some 0) ""

/-- C3. In one chain run no action is ever executed twice: the executed ids
of any `runAction` trace are duplicate-free, and the concrete chain
`A → B → A` executes `A`, executes `B`, then halts with a cycle warning
before re-running `A`. -/
theorem chain_cycle_termination :
    (∀ (actions : List ActionDefinition)
       (exec : String → List (String × String) → ExecOutcome) (actionId : String),
       (executedIds (runAction actions exec actionId)).Nodup) ∧
    runAction cycleDemoActions cycleDemoExec "A" =
      [ChainEvent.executed "A", ChainEvent.executed "B", ChainEvent.cycleWarning,
       ChainEvent.completed "ActionA"] := by
  constructor
  · intro actions exec actionId
    rw [runAction]
    cases hf : actions.find? (fun candidate => candidate.id = actionId) with
    | none => simp [executedIds]
    | some action =>
      dsimp only
      cases hx : exec action.id [] with
      | throws msg => simp [executedIds]
      | ok code out =>
        dsimp only
        by_cases hc : code = some 0
        · rw [if_pos hc]
          obtain ⟨h1, h2⟩ := runChainLinks_executed actions exec action.chain [action.id] out
          simp only [executedIds, List.filterMap_cons, List.filterMap_append] at h1 h2 ⊢
          simp only [List.filterMap_nil, List.append_nil]
          refine List.Nodup.cons ?_ h1
          intro hmem
          exact h2 action.id hmem (List.mem_cons_self ..)
        · rw [if_neg hc]
          simp [executedIds]
  · decide

/-- Actions for the concrete halting scenario: `A`'s chain runs `B` then
`C`. -/
def haltDemoActions : List ActionDefinition :=
  [{ id := "A", name := "ActionA", language := ScriptLanguage.bash, script := "",
     chain := [{ targetActionId := "B" }, { targetActionId := "C" }] },
   { id := "B", name := "ActionB", language := ScriptLanguage.bash, script := "" },
   { id := "C", name := "ActionC", language := ScriptLanguage.bash, script := "" }]

/-- Executor oracle for the halting scenario: `B` exits with code 2, every
other run exits 0. -/
def haltDemoExec : String → List (String × String) → ExecOutcome :=
  fun id _ => if id = "B" then ExecOutcome.ok (some 2) "" else ExecOutcome.ok (some 0) ""

/-- C4. A chain is entered only when the root's exit code is exactly 0, and
the walk halts immediately when a link's result is non-zero or the
execution throws: concretely, for `A → B → C` with `B` exiting 2, `A` and
`B` execute and `C` never does; in general a non-zero or null root exit
produces no chain events, a throwing root produces none, and a link whose
execution returns a non-zero result or throws ends the trace at that
link. -/
theorem chain_halts_on_failure :
    (runAction haltDemoActions haltDemoExec "A" =
       [ChainEvent.executed "A", ChainEvent.executed "B", ChainEvent.completed "ActionA"] ∧
     executedIds (runAction haltDemoActions haltDemoExec "A") = ["A", "B"]) ∧
    (∀ (actions : List ActionDefinition)
       (exec : String → List (String × String) → ExecOutcome) (actionId : String)
       (action : ActionDefinition) (code : Option Int) (out : String),
       actions.find? (fun candidate => candidate.id = actionId) = some action →
       exec action.id [] = ExecOutcome.ok code out → code ≠ some 0 →
       runAction actions exec actionId =
         [ChainEvent.executed action.id, ChainEvent.exitedNonZero action.name]) ∧
    (∀ (actions : List ActionDefinition)
       (exec : String → List (String × String) → ExecOutcome) (actionId : String)
       (action : ActionDefinition) (msg : String),
       actions.find? (fun candidate => candidate.id = actionId) = some action →
       exec action.id [] = ExecOutcome.throws msg →
       runAction actions exec actionId =
         [ChainEvent.executed action.id, ChainEvent.runFailed action.name]) ∧
    (∀ (actions : List ActionDefinition)
       (exec : String → List (String × String) → ExecOutcome)
       (visited : List String) (prev : String) (link : ActionChainLink)
       (rest : List ActionChainLink) (next : ActionDefinition) (code : Option Int)
       (out : String),
       link.targetActionId ∉ visited →
       actions.find? (fun candidate => candidate.id = link.targetActionId) = some next →
       exec next.id (linkOverrides link prev) = ExecOutcome.ok code out → code ≠ some 0 →
       runChainLinks actions exec visited prev (link :: rest) =
         [ChainEvent.executed next.id]) ∧
    (∀ (actions : List ActionDefinition)
       (exec : String → List (String × String) → ExecOutcome)
       (visited : List String) (prev : String) (link : ActionChainLink)
       (rest : List ActionChainLink) (next : ActionDefinition) (msg : String),
       link.targetActionId ∉ visited →
       actions.find? (fun candidate => candidate.id = link.targetActionId) = some next →
       exec next.id (linkOverrides link prev) = ExecOutcome.throws msg →
       runChainLinks actions exec visited prev (link :: rest) =
         [ChainEvent.executed next.id, ChainEvent.chainFailed next.name]) := by
  refine ⟨⟨by decide, by decide⟩, ?_, ?_, ?_, ?_⟩
  · intro actions exec actionId action code out hf hx hc
    rw [runAction, hf]
    dsimp only
    rw [hx]
    dsimp only
    rw [if_neg hc]
  · intro actions exec actionId action msg hf hx
    rw [runAction, hf]
    dsimp only
    rw [hx]
  · intro actions exec visited prev link rest next code out hv hf hx hc
    rw [runChainLinks, if_neg hv, hf]
    dsimp only
    rw [hx]
    dsimp only
    rw [if_neg hc]
  · intro actions exec visited prev link rest next msg hv hf hx
    rw [runChainLinks, if_neg hv, hf]
    dsimp only
    rw [hx]

/-- Witness for C4: the general root and link halting statements applied to
the concrete halting scenario. -/
theorem chain_halts_on_failure_witness :
    runAction haltDemoActions haltDemoExec "B" =
      [ChainEvent.executed "B", ChainEvent.exitedNonZero "ActionB"] ∧
    runChainLinks haltDemoActions haltDemoExec ["A"] "" [{ targetActionId := "B" }] =
      [ChainEvent.executed "B"] :=
  ⟨chain_halts_on_failure.2.1 haltDemoActions haltDemoExec "B"
     { id := "B", name := "ActionB", language := ScriptLanguage.bash, script := "" }
     (some 2) "" (by decide) (by decide) (by decide),
   chain_halts_on_failure.2.2.2.1 haltDemoActions haltDemoExec ["A"] ""
     { targetActionId := "B" } []
     { id := "B", name := "ActionB", language := ScriptLanguage.bash, script := "" }
     (some 2) "" (by decide) (by decide) (by decide) (by decide)⟩

/-! ## Action executor (`actionExecutor.ts`)

`ActionExecutor.execute` touches several real collaborators: `process.env`
and `process.platform`, the `path` and `fs` modules, the secret storage,
`window.showInputBox` (through the parameter resolver), `where bash`
lookup, temp-directory creation and `Date.now()`.  All of them are bundled
into one oracle record; every field corresponds to one external call site.
`dirname` carries a strictly decreasing `depth` measure — the real
`path.dirname` reaches the filesystem root in finitely many steps — which
also makes the JavaScript loop's `visited` set redundant. -/

structure ExecutionContext where
  workspaceFolder : Option String := none
  activeFile : Option String := none
  relativeFile : Option String := none
  selectedText : Option String := none
  clipboardText : Option String := none
  lineNumber : Option Nat := none
  explorerSelection : Option String := none
deriving DecidableEq, Repr

structure SysOracle where
  platform : Platform
  baseEnv : List (String × String)
  secrets : String → Option String
  promptOracle : ParameterMetadata → Option String
  fileExists : String → Bool
  joinPath : String → String → String
  dirname : String → String
  depth : String → Nat
  dirname_decreases : ∀ s, dirname s ≠ s → depth (dirname s) < depth s
  resolveAgainstCwd : String → String
  resolve2 : String → String → String
  pathIsAbsolute : String → Bool
  homedir : String
  workspaceRoot : Option String
  whereBashStdout : Option String
  tempDir : String
  now : Nat
  nodeRegisterImportArg : Option String

/-- Embedding of `SecretManager.readSecret`: a missing or empty key (the
JavaScript `!secretKey` guard) yields no value, otherwise the storage is
consulted. -/
def readSecret (secrets : String → Option String) (secretKey : Option String) : Option String :=
  match secretKey with
  | none => none
  | some k => if k = "" then none else secrets k

/-- Embedding of `resolvePredefinedVariable` over the static
`PREDEFINED_VARIABLES` table (`predefinedVariables.ts`); the names are
pairwise distinct, so the table scan is this name dispatch.  `lineNumber`
uses a JavaScript truthiness test, so a zero line yields no value. -/
def resolvePredefinedVariable (sys : SysOracle) (name : String)
    (context : ExecutionContext) : Option String :=
  if name = "workspaceFolder" then
    match context.workspaceFolder with
    | some w => some w
    | none => sys.workspaceRoot
  else if name = "file" then context.activeFile
  else if name = "relativeFile" then context.relativeFile
  else if name = "selectedText" then context.selectedText
  else if name = "clipboardText" then context.clipboardText
  else if name = "lineNumber" then
    match context.lineNumber with
    | some n => if n = 0 then none else some (toString n)
    | none => none
  else if name = "explorerSelectedPath" then context.explorerSelection
  else none

inductive TokenTarget
  | script
  | environment
deriving DecidableEq, Repr

/-- Embedding of `formatTokenValue`: path-normalize, then for `node`
scripts on Windows double every backslash so the value stays valid inside
a JavaScript source literal. -/
def formatTokenValue (sys : SysOracle) (value : String) (language : ScriptLanguage)
    (impl : Option BashImplementation) (target : TokenTarget) : String :=
  let normalized := normalizePathForShell sys.platform value language impl
  if target = TokenTarget.script ∧ language = ScriptLanguage.node ∧
      sys.platform = Platform.win32 then
    String.mk (normalized.data.foldr
      (fun c acc => if c = '\\' then '\\' :: '\\' :: acc else c :: acc) [])
  else normalized

/-- Embedding of `ActionExecutor.replaceTokens`: `param:name` tokens
resolve through the parameter map (an empty name is falsy and yields no
value); other keys try the predefined-variable table, then a same-named
declared parameter (where the original would format a missing value of
`undefined`, the token is preserved); unresolved tokens stay literal. -/
def replaceTokens (sys : SysOracle) (action : ActionDefinition)
    (context : ExecutionContext) (parameterValues : List (String × String))
    (impl : Option BashImplementation) (target : TokenTarget) (source : String) : String :=
  replaceTemplateTokens source (fun token =>
    if token.key = "param" then
      match token.args.head? with
      | some name =>
        if name = "" then none
        else
          match mapGet parameterValues name with
          | some v => some (formatTokenValue sys v action.language impl target)
          | none => none
      | none => none
    else
      match resolvePredefinedVariable sys token.key context with
      | some v => some (formatTokenValue sys v action.language impl target)
      | none =>
        match action.parameters.find? (fun p => p.name = token.key) with
        | some p =>
          (mapGet parameterValues p.name).map
            (fun v => formatTokenValue sys v action.language impl target)
        | none => none)

/-- Embedding of `getFileExtension`; the TypeScript `default: ".txt"` arm
is unreachable for the closed `ScriptLanguage` union. -/
def getFileExtension (language : ScriptLanguage) : String :=
  match language with
  | ScriptLanguage.bash => ".sh"
  | ScriptLanguage.powershell => ".ps1"
  | ScriptLanguage.python => ".py"
  | ScriptLanguage.node => ".mjs"

/-- Embedding of `findPythonInterpreterInDirectory`: probe the named venv
subdirectories for a platform-appropriate interpreter, then fall back to a
`pyvenv.cfg` marker next to the expected interpreter path. -/
def findPythonInterpreterInDirectory (sys : SysOracle) (directory : String) : Option String :=
  let candidates := [".venv", "venv", "env", ".env", "virtualenv", "pyenv"]
  match candidates.findSome? (fun candidate =>
      let base := sys.joinPath directory candidate
      let executable :=
        if sys.platform = Platform.win32 then
          sys.joinPath (sys.joinPath base "Scripts") "python.exe"
        else sys.joinPath (sys.joinPath base "bin") "python"
      if sys.fileExists executable then some executable else none) with
  | some found => some found
  | none =>
    if sys.fileExists (sys.joinPath directory "pyvenv.cfg") then
      let executable :=
        if sys.platform = Platform.win32 then
          sys.joinPath (sys.joinPath directory "Scripts") "python.exe"
        else sys.joinPath (sys.joinPath directory "bin") "python"
      if sys.fileExists executable then some executable else none
    else none

/-- Walk of `findPythonInterpreter`: check the current directory, then move
to `path.dirname` until it reaches its fixpoint (the filesystem root). -/
def findPythonWalk (sys : SysOracle) (current : String) : Option String :=
  match findPythonInterpreterInDirectory sys current with
  | some found => some found
  | none =>
    if h : sys.dirname current = current then none
    else findPythonWalk sys (sys.dirname current)
termination_by sys.depth current
decreasing_by exact sys.dirname_decreases current h

/-- Embedding of `findPythonInterpreter`: the start directory is first
resolved (`path.resolve`). -/
def findPythonInterpreter (sys : SysOracle) (startDirectory : String) : Option String :=
  findPythonWalk sys (sys.resolveAgainstCwd startDirectory)

structure BashCommandInfo where
  command : String
  implementation : BashImplementation
deriving DecidableEq, Repr

/-- Split on `/\r?\n/`: a newline, optionally preceded by a carriage
return; a lone carriage return is not a separator. -/
def splitLines : List Char → List (List Char)
  | [] => [[]]
  | '\r' :: '\n' :: rest => [] :: splitLines rest
  | '\n' :: rest => [] :: splitLines rest
  | c :: rest =>
    match splitLines rest with
    | [] => [[c]]
    | line :: lines => (c :: line) :: lines

/-- JavaScript `String.prototype.toUpperCase`, modelled characterwise. -/
def toUpperJS (s : String) : String :=
  String.mk (s.data.map Char.toUpper)

/-- JavaScript `String.prototype.toLowerCase`, modelled characterwise. -/
def toLowerJS (s : String) : String :=
  String.mk (s.data.map Char.toLower)

/-- JavaScript `String.prototype.trim` on a character list. -/
def trimChars (l : List Char) : List Char :=
  ((l.dropWhile Char.isWhitespace).reverse.dropWhile Char.isWhitespace).reverse

/-- Does the list start with the given pattern? -/
def prefixMatches : List Char → List Char → Bool
  | [], _ => true
  | _ :: _, [] => false
  | p :: ps, c :: cs => p == c && prefixMatches ps cs

/-- JavaScript `String.prototype.includes` on character lists. -/
def includesSeq (pattern : List Char) : List Char → Bool
  | [] => pattern.isEmpty
  | c :: cs => prefixMatches pattern (c :: cs) || includesSeq pattern cs

/-- Embedding of `resolveBashCommand` (without the instance-level cache,
which only memoizes this idempotent computation): on Windows the first
`where bash` result line is classified by lowercase path patterns into
`wsl`, `git-bash` or `other`; a failed or empty lookup falls back to plain
`bash`/`other`.  `whereBashStdout` is `some stdout` exactly when
`spawnSync("where", ["bash"])` returned status 0 with truthy stdout. -/
def resolveBashCommand (sys : SysOracle) : BashCommandInfo :=
  if sys.platform ≠ Platform.win32 then ⟨"bash", BashImplementation.posix⟩
  else
    match sys.whereBashStdout with
    | some stdout =>
      let candidates := ((splitLines stdout.data).map trimChars).filter
        (fun line => line.length ≠ 0)
      match candidates.head? with
      | some commandPath =>
        let lower := toLowerJS (String.mk commandPath)
        let implementation :=
          if (includesSeq "\\system32\\bash.exe".data lower.data ||
              includesSeq "\\system32\\wsl.exe".data lower.data) then
            BashImplementation.wsl
          else if (includesSeq "\\git\\bin\\bash.exe".data lower.data ||
              includesSeq "\\git\\usr\\bin\\bash.exe".data lower.data) then
            BashImplementation.gitBash
          else BashImplementation.other
        ⟨String.mk commandPath, implementation⟩
      | none => ⟨"bash", BashImplementation.other⟩
    | none => ⟨"bash", BashImplementation.other⟩

structure ResolvedCommand where
  command : String
  bashImplementation : Option BashImplementation := none
deriving DecidableEq, Repr

/-- Embedding of `getCommand`; the TypeScript `default:` arm repeats the
`bash` arm and is unreachable for the closed union. -/
def getCommand (sys : SysOracle) (language : ScriptLanguage)
    (workingDirectory : String) : ResolvedCommand :=
  match language with
  | ScriptLanguage.powershell =>
    ⟨if sys.platform = Platform.win32 then "powershell" else "pwsh", none⟩
  | ScriptLanguage.node => ⟨"node", none⟩
  | ScriptLanguage.python =>
    ⟨(findPythonInterpreter sys workingDirectory).getD "python", none⟩
  | ScriptLanguage.bash =>
    if sys.platform = Platform.win32 then
      let info := resolveBashCommand sys
      ⟨info.command, some info.implementation⟩
    else ⟨"bash", some BashImplementation.posix⟩

/-- Embedding of `getCommandArgs`. -/
def getCommandArgs (sys : SysOracle) (language : ScriptLanguage) (scriptPath : String)
    (impl : Option BashImplementation) : List String :=
  match language with
  | ScriptLanguage.bash => [convertScriptPathForBash sys.platform scriptPath impl]
  | ScriptLanguage.powershell => ["-File", scriptPath]
  | ScriptLanguage.python => [scriptPath]
  | ScriptLanguage.node => [scriptPath]

/-- Embedding of `applyNodeRegisterArgs`; `nodeRegisterImportArg` stands
for `getNodeRegisterImportArg()` (a data-URI built with the external
`pathToFileURL` and `encodeURIComponent`), `none` when no loader path is
configured. -/
def applyNodeRegisterArgs (sys : SysOracle) (args : List String) : List String :=
  match sys.nodeRegisterImportArg with
  | none => args
  | some importArg => "--import" :: importArg :: args

/-- Path produced by `writeTemporaryScript`: the oracle's fresh temp
directory joined with `<actionId>-<Date.now()><extension>`.  The content
written there (the rendered script with line endings normalized to
`os.EOL`, mode `0o700`) is carried in the execution trace. -/
def writeTemporaryScript (sys : SysOracle) (actionId : String) (extension : String) : String :=
  sys.joinPath sys.tempDir (actionId ++ "-" ++ toString sys.now ++ extension)

/-- Fallback of `resolveWorkingDirectory`:
`context.workspaceFolder ?? workspace root ?? home`. -/
def workingDirFallback (sys : SysOracle) (context : ExecutionContext) : String :=
  match context.workspaceFolder with
  | some w => w
  | none =>
    match sys.workspaceRoot with
    | some w => w
    | none => sys.homedir

/-- Embedding of `resolveWorkingDirectory`: a configured absolute path
wins; a configured relative path resolves against the focused workspace
root or else the home directory; no (or blank) configuration falls back to
the workspace root or home. -/
def resolveWorkingDirectory (sys : SysOracle) (action : ActionDefinition)
    (context : ExecutionContext) : String :=
  match action.workingDirectory with
  | none => workingDirFallback sys context
  | some wd =>
    let configured := wd.trim
    if configured = "" then workingDirFallback sys context
    else if sys.pathIsAbsolute configured then configured
    else
      match (match context.workspaceFolder with
             | some w => some w
             | none => sys.workspaceRoot) with
      | some base => sys.resolve2 base configured
      | none => sys.resolve2 sys.homedir configured

/-- The `substitute` closure inside `buildEnvironment`: a missing or empty
input (JavaScript `!input`) yields no value; otherwise tokens are replaced
(environment target) and, unless the original input used `{{` escaping,
the result is path-normalized. -/
def substituteEnvValue (sys : SysOracle) (action : ActionDefinition)
    (context : ExecutionContext) (parameterValues : List (String × String))
    (impl : Option BashImplementation) (input : Option String) : Option String :=
  match input with
  | none => none
  | some s =>
    if s = "" then none
    else
      let replaced := replaceTokens sys action context parameterValues impl
        TokenTarget.environment s
      if includesSeq "\x7b\x7b".data s.data = false then
        some (normalizePathForShell sys.platform replaced action.language impl)
      else some replaced

/-- Entry loop of `buildEnvironment`: an entry with an empty key is
skipped; a secret-backed entry whose secret has no stored value throws;
present values are substituted (the `?? ""` fallback applies when
substitution yields no value); a plain entry with an `undefined` value is
skipped. -/
def envEntriesLoop (sys : SysOracle) (action : ActionDefinition)
    (context : ExecutionContext) (parameterValues : List (String × String))
    (impl : Option BashImplementation) :
    List ActionEnvironmentVariable → List (String × String) →
    Except String (List (String × String))
  | [], env => Except.ok env
  | entry :: rest, env =>
    if entry.key = "" then
      envEntriesLoop sys action context parameterValues impl rest env
    else if entry.fromSecret = some true then
      match readSecret sys.secrets entry.secretKey with
      | none =>
        Except.error ("Secret value not found for " ++ entry.key ++
          ". Update the secret and try again.")
      | some secretValue =>
        envEntriesLoop sys action context parameterValues impl rest
          (mapSet env entry.key
            ((substituteEnvValue sys action context parameterValues impl
              (some secretValue)).getD ""))
    else
      match entry.value with
      | some v =>
        envEntriesLoop sys action context parameterValues impl rest
          (mapSet env entry.key
            ((substituteEnvValue sys action context parameterValues impl
              (some v)).getD ""))
      | none => envEntriesLoop sys action context parameterValues impl rest env

/-- Final loop of `buildEnvironment`: one `PARAM_<UPPERCASED NAME>`
variable per resolved parameter, path-normalized. -/
def paramEnvFold (sys : SysOracle) (action : ActionDefinition)
    (impl : Option BashImplementation) (parameterValues : List (String × String))
    (env : List (String × String)) : List (String × String) :=
  parameterValues.foldl (fun env pv =>
    mapSet env ("PARAM_" ++ toUpperJS pv.1)
      (normalizePathForShell sys.platform pv.2 action.language impl)) env

/-- Embedding of `buildEnvironment`: a copy of the inherited environment
plus the action-id and path-normalized working-directory markers, then the
declared entries, and finally the `PARAM_*` variables. -/
def buildEnvironment (sys : SysOracle) (action : ActionDefinition)
    (context : ExecutionContext) (parameterValues : List (String × String))
    (workingDirectory : String) (impl : Option BashImplementation) :
    Except String (List (String × String)) :=
  let env0 := mapSet (mapSet sys.baseEnv "SNIP_IT_ACTION_ID" action.id)
    "SNIP_IT_WORKING_DIRECTORY"
    (normalizePathForShell sys.platform workingDirectory action.language impl)
  match envEntriesLoop sys action context parameterValues impl action.env env0 with
  | Except.error e => Except.error e
  | Except.ok env1 =>
    Except.ok (paramEnvFold sys action impl parameterValues env1)

/-- Observable steps of one `execute` call that matter for ordering: the
temporary script write (with its rendered content) and the process spawn. -/
inductive ExecEvent
  | wroteScript (path : String) (content : String)
  | spawned (command : String) (args : List String)
deriving DecidableEq, Repr

/-- Embedding of `ActionExecutor.execute` up to the process spawn: resolve
parameters, resolve the working directory, build the execution plan (which
writes the temporary script), assemble spawn options (environment), then
spawn through `runWithTerminal`/`runWithOutputChannel`.  The pair returned
is the ordered event trace and the thrown-or-ok outcome; the collection of
the process result is outside this model. -/
def execute (sys : SysOracle) (action : ActionDefinition) (context : ExecutionContext)
    (parameterOverrides : List (String × String)) :
    List ExecEvent × Except String Unit :=
  let parameterValues := (resolve sys.promptOracle action parameterOverrides).values
  let workingDirectory := resolveWorkingDirectory sys action context
  let commandInfo := getCommand sys action.language workingDirectory
  let resolvedScript := replaceTokens sys action context parameterValues
    commandInfo.bashImplementation TokenTarget.script action.script
  let scriptPath := writeTemporaryScript sys action.id (getFileExtension action.language)
  let args0 := getCommandArgs sys action.language scriptPath commandInfo.bashImplementation
  let args := if action.language = ScriptLanguage.node then applyNodeRegisterArgs sys args0
    else args0
  match buildEnvironment sys action context parameterValues workingDirectory
      commandInfo.bashImplementation with
  | Except.error e => ([ExecEvent.wroteScript scriptPath resolvedScript], Except.error e)
  | Except.ok _ =>
    ([ExecEvent.wroteScript scriptPath resolvedScript,
      ExecEvent.spawned commandInfo.command args], Except.ok ())

theorem envEntriesLoop_error (sys : SysOracle) (action : ActionDefinition)
    (context : ExecutionContext) (parameterValues : List (String × String))
    (impl : Option BashImplementation) :
    ∀ (entries : List ActionEnvironmentVariable) (env : List (String × String)),
    (∃ entry ∈ entries, entry.key ≠ "" ∧ entry.fromSecret = some true ∧
      readSecret sys.secrets entry.secretKey = none) →
    ∃ msg, envEntriesLoop sys action context parameterValues impl entries env =
      Except.error msg := by
  intro entries
  induction entries with
  | nil =>
    intro env h
    obtain ⟨e, he, _⟩ := h
    simp at he
  | cons entry rest ih =>
    intro env h
    rw [envEntriesLoop]
    by_cases hk : entry.key = ""
    · rw [if_pos hk]
      obtain ⟨e, he, h1, h2, h3⟩ := h
      rcases List.mem_cons.mp he with heq | hrest
      · exact absurd (heq ▸ hk) h1
      · exact ih env ⟨e, hrest, h1, h2, h3⟩
    · rw [if_neg hk]
      by_cases hs : entry.fromSecret = some true
      · rw [if_pos hs]
        cases hr : readSecret sys.secrets entry.secretKey with
        | none => exact ⟨_, rfl⟩
        | some sv =>
          dsimp only
          obtain ⟨e, he, h1, h2, h3⟩ := h
          rcases List.mem_cons.mp he with heq | hrest
          · rw [heq] at h3
            rw [h3] at hr
            cases hr
          · exact ih _ ⟨e, hrest, h1, h2, h3⟩
      · rw [if_neg hs]
        obtain ⟨e, he, h1, h2, h3⟩ := h
        rcases List.mem_cons.mp he with heq | hrest
        · rw [heq] at h2
          exact absurd h2 hs
        · cases entry.value with
          | some v =>
            dsimp only
            exact ih _ ⟨e, hrest, h1, h2, h3⟩
          | none => exact ih _ ⟨e, hrest, h1, h2, h3⟩

theorem buildEnvironment_error (sys : SysOracle) (action : ActionDefinition)
    (context : ExecutionContext) (parameterValues : List (String × String))
    (wd : String) (impl : Option BashImplementation)
    (h : ∃ entry ∈ action.env, entry.key ≠ "" ∧ entry.fromSecret = some true ∧
      readSecret sys.secrets entry.secretKey = none) :
    ∃ msg, buildEnvironment sys action context parameterValues wd impl =
      Except.error msg := by
  obtain ⟨msg, hmsg⟩ := envEntriesLoop_error sys action context parameterValues impl
    action.env
    (mapSet (mapSet sys.baseEnv "SNIP_IT_ACTION_ID" action.id)
      "SNIP_IT_WORKING_DIRECTORY"
      (normalizePathForShell sys.platform wd action.language impl)) h
  refine ⟨msg, ?_⟩
  simp only [buildEnvironment]
  rw [hmsg]

/-- C2 (amended): an env entry with a nonempty key and `fromSecret: true`
whose secret key has no stored value makes `execute` throw out of
environment assembly, and the trace contains no spawn event for that run. -/
theorem secret_missing_fails_before_spawn (sys : SysOracle) (action : ActionDefinition)
    (context : ExecutionContext) (overrides : List (String × String))
    (entry : ActionEnvironmentVariable) (he : entry ∈ action.env)
    (hk : entry.key ≠ "") (hs : entry.fromSecret = some true)
    (hr : readSecret sys.secrets entry.secretKey = none) :
    (∃ msg, (execute sys action context overrides).2 = Except.error msg) ∧
    ∀ (cmd : String) (args : List String),
      ExecEvent.spawned cmd args ∉ (execute sys action context overrides).1 := by
  obtain ⟨msg, hmsg⟩ := buildEnvironment_error sys action context
    ((resolve sys.promptOracle action overrides).values)
    (resolveWorkingDirectory sys action context)
    ((getCommand sys action.language
      (resolveWorkingDirectory sys action context)).bashImplementation)
    ⟨entry, he, hk, hs, hr⟩
  constructor
  · refine ⟨msg, ?_⟩
    simp only [execute]
    rw [hmsg]
  · intro cmd args
    simp only [execute]
    rw [hmsg]
    simp

/-- Oracle fixture with an empty secret store; `dirname` is the identity,
so its depth measure is trivial. -/
def fixtureSys : SysOracle :=
  { platform := Platform.posixLike
    baseEnv := []
    secrets := fun _ => none
    promptOracle := fun _ => none
    fileExists := fun _ => false
    joinPath := fun a b => a ++ "/" ++ b
    dirname := fun s => s
    depth := fun _ => 0
    dirname_decreases := fun _ h => absurd rfl h
    resolveAgainstCwd := fun s => s
    resolve2 := fun _ p => p
    pathIsAbsolute := fun _ => true
    homedir := "/home/u"
    workspaceRoot := none
    whereBashStdout := none
    tempDir := "/tmp/snip-it-x"
    now := 0
    nodeRegisterImportArg := none }

/-- Node action whose only env entry is secret-backed with key `API`. -/
def fixtureSecretAction : ActionDefinition :=
  { id := "s1", name := "S", language := ScriptLanguage.node, script := "",
    env := [{ key := "API", fromSecret := some true, secretKey := some "K" }] }

/-- Node action whose only env entry is secret-backed with an empty key. -/
def fixtureEmptyKeyAction : ActionDefinition :=
  { id := "s2", name := "S2", language := ScriptLanguage.node, script := "",
    env := [{ key := "", fromSecret := some true, secretKey := some "K" }] }

/-- Witness for the amended C2: a `fromSecret` entry with key `API` and no
stored secret value fails the run before any spawn. -/
theorem secret_missing_fails_before_spawn_witness :
    (∃ msg, (execute fixtureSys fixtureSecretAction {} []).2 = Except.error msg) ∧
    ∀ (cmd : String) (args : List String),
      ExecEvent.spawned cmd args ∉ (execute fixtureSys fixtureSecretAction {} []).1 :=
  secret_missing_fails_before_spawn fixtureSys fixtureSecretAction {} []
    { key := "API", fromSecret := some true, secretKey := some "K" }
    (by decide) (by decide) (by decide) (by decide)

/-- C2 counterexample for the claim as literally stated: an env entry with
an EMPTY key and `fromSecret: true` whose secret has no stored value is
skipped by the `if (!entry.key) continue` guard, so the run succeeds and
the spawn step is reached. -/
theorem secret_missing_empty_key_counterexample :
    (∃ entry ∈ fixtureEmptyKeyAction.env,
      entry.fromSecret = some true ∧
      readSecret fixtureSys.secrets entry.secretKey = none) ∧
    (execute fixtureSys fixtureEmptyKeyAction {} []).2 = Except.ok () ∧
    ExecEvent.spawned "node" ["/tmp/snip-it-x/s2-0.mjs"] ∈
      (execute fixtureSys fixtureEmptyKeyAction {} []).1 := by
  refine ⟨⟨{ key := "", fromSecret := some true, secretKey := some "K" },
    by decide, by decide, by decide⟩, ?_, ?_⟩ <;>
    simp [execute, resolve, resolveLoop, combineMetadata, extractParameterDescriptors,
      parseTemplateTokens, parseChars, extractDescriptors, resolveWorkingDirectory,
      workingDirFallback, getCommand, replaceTokens, replaceTemplateTokens, renderChars,
      writeTemporaryScript, getFileExtension, getCommandArgs, applyNodeRegisterArgs,
      buildEnvironment, envEntriesLoop, readSecret, mapSet, fixtureSys,
      fixtureEmptyKeyAction] <;> try decide

theorem mapGet_mem {m : List (String × String)} {k v : String}
    (h : mapGet m k = some v) : (k, v) ∈ m := by
  induction m with
  | nil => simp [mapGet, List.find?] at h
  | cons e rest ih =>
    obtain ⟨k', v'⟩ := e
    rw [mapGet_cons] at h
    by_cases hk : k' = k
    · rw [if_pos hk] at h
      simp only [Option.some.injEq] at h
      subst hk
      subst h
      exact List.mem_cons_self ..
    · rw [if_neg hk] at h
      exact List.mem_cons_of_mem _ (ih h)

theorem mapSet_fst_mem {m : List (String × String)} {k v q : String}
    (h : q ∈ (mapSet m k v).map Prod.fst) : q ∈ m.map Prod.fst ∨ q = k := by
  induction m with
  | nil => simpa [mapSet] using h
  | cons e rest ih =>
    obtain ⟨k', v'⟩ := e
    by_cases hk : k' = k
    · simp only [mapSet, if_pos hk, List.map_cons, List.mem_cons] at h
      rcases h with h1 | h2
      · exact Or.inr h1
      · exact Or.inl (List.mem_cons_of_mem _ h2)
    · simp only [mapSet, if_neg hk, List.map_cons, List.mem_cons] at h ⊢
      rcases h with h1 | h2
      · exact Or.inl (Or.inl h1)
      · rcases ih h2 with h3 | h4
        · exact Or.inl (Or.inr h3)
        · exact Or.inr h4

theorem mapSet_keys_nodup {m : List (String × String)} (k v : String)
    (h : (m.map Prod.fst).Nodup) : ((mapSet m k v).map Prod.fst).Nodup := by
  induction m with
  | nil => simp [mapSet]
  | cons e rest ih =>
    obtain ⟨k', v'⟩ := e
    simp only [List.map_cons, List.nodup_cons] at h
    by_cases hk : k' = k
    · simp only [mapSet, if_pos hk, List.map_cons, List.nodup_cons]
      exact ⟨hk ▸ h.1, h.2⟩
    · simp only [mapSet, if_neg hk, List.map_cons, List.nodup_cons]
      refine ⟨fun hc => ?_, ih h.2⟩
      rcases mapSet_fst_mem hc with h1 | h2
      · exact h.1 h1
      · exact hk h2

theorem resolveLoop_keys_nodup (oracle : ParameterMetadata → Option String) :
    ∀ (ds : List ParameterMetadata) (results : List (String × String))
      (prompted : List String),
    (results.map Prod.fst).Nodup →
    ((resolveLoop oracle ds results prompted).values.map Prod.fst).Nodup := by
  intro ds
  induction ds with
  | nil => intro results prompted h; exact h
  | cons d rest ih =>
    intro results prompted h
    rw [resolveLoop]
    by_cases hg : (mapGet results d.name).isSome
    · rw [if_pos hg]
      exact ih results prompted h
    · rw [if_neg hg]
      rcases hpv : promptForValue oracle d with ⟨v?, dp⟩
      dsimp only
      cases v? with
      | some w => exact ih _ _ (mapSet_keys_nodup d.name w h)
      | none => exact ih _ _ h

theorem string_append_right_cancel {p a b : String} (h : p ++ a = p ++ b) : a = b := by
  have hd : p.data ++ a.data = p.data ++ b.data := congrArg String.data h
  have hab : a.data = b.data := List.append_cancel_left hd
  rcases a with ⟨da⟩
  rcases b with ⟨db⟩
  simp only at hab
  rw [hab]

theorem paramEnvFold_preserve (sys : SysOracle) (action : ActionDefinition)
    (impl : Option BashImplementation) :
    ∀ (values env0 : List (String × String)) (key : String),
    (∀ pv ∈ values, "PARAM_" ++ toUpperJS pv.1 ≠ key) →
    mapGet (paramEnvFold sys action impl values env0) key = mapGet env0 key := by
  intro values
  induction values with
  | nil => intro env0 key _; rfl
  | cons pv rest ih =>
    intro env0 key h
    rw [paramEnvFold, List.foldl_cons]
    have hne : "PARAM_" ++ toUpperJS pv.1 ≠ key := h pv (List.mem_cons_self ..)
    rw [show rest.foldl (fun env pv =>
        mapSet env ("PARAM_" ++ toUpperJS pv.1)
          (normalizePathForShell sys.platform pv.2 action.language impl))
        (mapSet env0 ("PARAM_" ++ toUpperJS pv.1)
          (normalizePathForShell sys.platform pv.2 action.language impl)) =
        paramEnvFold sys action impl rest
          (mapSet env0 ("PARAM_" ++ toUpperJS pv.1)
            (normalizePathForShell sys.platform pv.2 action.language impl)) from rfl]
    rw [ih _ key (fun q hq => h q (List.mem_cons_of_mem _ hq))]
    exact mapGet_mapSet_ne _ _ hne

theorem paramEnvFold_isSome (sys : SysOracle) (action : ActionDefinition)
    (impl : Option BashImplementation) :
    ∀ (values env0 : List (String × String)) (key : String) (w0 : String),
    mapGet env0 key = some w0 →
    ∃ w, mapGet (paramEnvFold sys action impl values env0) key = some w := by
  intro values
  induction values with
  | nil => intro env0 key w0 h; exact ⟨w0, h⟩
  | cons pv rest ih =>
    intro env0 key w0 h
    rw [paramEnvFold, List.foldl_cons]
    by_cases hk : "PARAM_" ++ toUpperJS pv.1 = key
    · exact ih _ key _ (by rw [← hk]; exact mapGet_mapSet_self ..)
    · exact ih _ key w0 (by rw [mapGet_mapSet_ne _ _ hk, h])

theorem paramEnvFold_mem_isSome (sys : SysOracle) (action : ActionDefinition)
    (impl : Option BashImplementation) :
    ∀ (values env0 : List (String × String)) (P v : String),
    (P, v) ∈ values →
    ∃ w, mapGet (paramEnvFold sys action impl values env0) ("PARAM_" ++ toUpperJS P) =
      some w := by
  intro values
  induction values with
  | nil => intro env0 P v h; simp at h
  | cons pv rest ih =>
    intro env0 P v h
    rw [paramEnvFold, List.foldl_cons]
    rcases List.mem_cons.mp h with heq | hrest
    · subst heq
      exact paramEnvFold_isSome sys action impl rest _ _ _ (mapGet_mapSet_self ..)
    · exact ih _ P v hrest

theorem paramEnvFold_exact (sys : SysOracle) (action : ActionDefinition)
    (impl : Option BashImplementation) :
    ∀ (values env0 : List (String × String)) (P v : String),
    (P, v) ∈ values → (values.map Prod.fst).Nodup →
    (∀ q ∈ values.map Prod.fst, q ≠ P → toUpperJS q ≠ toUpperJS P) →
    mapGet (paramEnvFold sys action impl values env0) ("PARAM_" ++ toUpperJS P) =
      some (normalizePathForShell sys.platform v action.language impl) := by
  intro values
  induction values with
  | nil => intro env0 P v h; simp at h
  | cons pv rest ih =>
    intro env0 P v h hnd hup
    simp only [List.map_cons, List.nodup_cons] at hnd
    rw [paramEnvFold, List.foldl_cons]
    rcases List.mem_cons.mp h with heq | hrest
    · subst heq
      rw [show rest.foldl (fun env pv =>
          mapSet env ("PARAM_" ++ toUpperJS pv.1)
            (normalizePathForShell sys.platform pv.2 action.language impl))
          (mapSet env0 ("PARAM_" ++ toUpperJS P)
            (normalizePathForShell sys.platform v action.language impl)) =
          paramEnvFold sys action impl rest
            (mapSet env0 ("PARAM_" ++ toUpperJS P)
              (normalizePathForShell sys.platform v action.language impl)) from rfl]
      rw [paramEnvFold_preserve sys action impl rest _ _ ?hfree]
      · exact mapGet_mapSet_self ..
      case hfree =>
        intro q hq hc
        have hm : q.1 ∈ List.map Prod.fst rest := List.mem_map_of_mem Prod.fst hq
        have hqP : q.1 ≠ P := by
          intro hqp
          exact hnd.1 (hqp ▸ hm)
        have := string_append_right_cancel hc
        refine hup q.1 ?_ hqP this
        rw [List.map_cons]
        exact List.mem_cons_of_mem _ hm
    · exact ih _ P v hrest hnd.2
        (fun q hq hqP => hup q (List.mem_cons_of_mem _ hq) hqP)

/-- C10. `ParameterResolver.resolve` returns a map containing every entry
of `providedValues` verbatim — including names matching no declaration and
no script token — and `buildEnvironment` sets a `PARAM_<UPPERCASED NAME>`
variable for each such override; when no other resolved name collides on
the uppercased form, that variable holds exactly the (path-normalized)
provided value. -/
theorem provided_overrides_reach_environment
    (sys : SysOracle) (action : ActionDefinition) (context : ExecutionContext)
    (provided : List (String × String)) (wd : String)
    (impl : Option BashImplementation) (e : List (String × String)) (P v : String)
    (hp : mapGet provided P = some v)
    (hb : buildEnvironment sys action context
      (resolve sys.promptOracle action provided).values wd impl = Except.ok e) :
    mapGet (resolve sys.promptOracle action provided).values P = some v ∧
    (∃ w, mapGet e ("PARAM_" ++ toUpperJS P) = some w) ∧
    (((provided.map Prod.fst).Nodup ∧
      (∀ q ∈ (resolve sys.promptOracle action provided).values.map Prod.fst,
        q ≠ P → toUpperJS q ≠ toUpperJS P)) →
      mapGet e ("PARAM_" ++ toUpperJS P) =
        some (normalizePathForShell sys.platform v action.language impl)) := by
  have hval : mapGet (resolve sys.promptOracle action provided).values P = some v :=
    (resolveLoop_preserves sys.promptOracle (combineMetadata action) provided []
      P v hp (by simp)).1
  have hmem : (P, v) ∈ (resolve sys.promptOracle action provided).values :=
    mapGet_mem hval
  simp only [buildEnvironment] at hb
  cases hloop : envEntriesLoop sys action context
      (resolve sys.promptOracle action provided).values impl action.env
      (mapSet (mapSet sys.baseEnv "SNIP_IT_ACTION_ID" action.id)
        "SNIP_IT_WORKING_DIRECTORY"
        (normalizePathForShell sys.platform wd action.language impl)) with
  | error msg => rw [hloop] at hb; cases hb
  | ok env1 =>
    rw [hloop] at hb
    have he : e = paramEnvFold sys action impl
        (resolve sys.promptOracle action provided).values env1 := by
      cases hb
      rfl
    subst he
    refine ⟨hval, ?_, ?_⟩
    · exact paramEnvFold_mem_isSome sys action impl _ env1 P v hmem
    · intro ⟨hnd, hup⟩
      exact paramEnvFold_exact sys action impl _ env1 P v hmem
        (resolveLoop_keys_nodup sys.promptOracle (combineMetadata action) provided [] hnd)
        hup

/-- Bash action with no declared parameters and an empty script, used to
show an undeclared override flowing through to the environment. -/
def fixturePlainAction : ActionDefinition :=
  { id := "w10", name := "W10", language := ScriptLanguage.bash, script := "" }

/-- Witness for C10: the override `out := "hello"` (matching no declaration
and no script token of the action) survives resolution verbatim and lands
in the environment as `PARAM_OUT`. -/
theorem provided_overrides_reach_environment_witness :
    mapGet (resolve fixtureSys.promptOracle fixturePlainAction
      [("out", "hello")]).values "out" = some "hello" ∧
    (∃ w, mapGet [("SNIP_IT_ACTION_ID", "w10"), ("SNIP_IT_WORKING_DIRECTORY", "/w"),
      ("PARAM_OUT", "hello")] ("PARAM_" ++ toUpperJS "out") = some w) ∧
    (((([("out", "hello")] : List (String × String)).map Prod.fst).Nodup ∧
      (∀ q ∈ (resolve fixtureSys.promptOracle fixturePlainAction
        [("out", "hello")]).values.map Prod.fst,
        q ≠ "out" → toUpperJS q ≠ toUpperJS "out")) →
      mapGet [("SNIP_IT_ACTION_ID", "w10"), ("SNIP_IT_WORKING_DIRECTORY", "/w"),
        ("PARAM_OUT", "hello")] ("PARAM_" ++ toUpperJS "out") =
        some (normalizePathForShell fixtureSys.platform "hello"
          fixturePlainAction.language none)) := by
  refine provided_overrides_reach_environment fixtureSys fixturePlainAction {}
    [("out", "hello")] "/w" none
    [("SNIP_IT_ACTION_ID", "w10"), ("SNIP_IT_WORKING_DIRECTORY", "/w"),
      ("PARAM_OUT", "hello")] "out" "hello"
    (by decide) ?_
  simp [buildEnvironment, envEntriesLoop, paramEnvFold, resolve, resolveLoop,
    combineMetadata, extractParameterDescriptors, parseTemplateTokens, parseChars,
    extractDescriptors, mapSet, mapGet, List.find?, normalizePathForShell,
    fixtureSys, fixturePlainAction]
  try decide

end SnipIt
